import Mathlib

/-!
A verification development for the generic path-addressed state store of the
mirror.4 repository (package `state`, file modelled from `src/unnamed/part_001`,
together with the HTTP/websocket glue in `src/main.go`).

The Go code navigates arbitrary typed data with `reflect`.  We embed the
universe of Go values that the store operates on as the inductive `Val`
(records with tagged fields, slices, string-keyed maps, pointers, and the
scalar kinds used by the repository), and translate the four operations
`Server.Get`, `Server.Post`, `Server.Put` and `Server.Delete` together with
their helpers (`chompPath`, `fieldIndexByName`, `apiTag.Maximum`,
`json.Marshal` / `json.Unmarshal` restricted to the modelled kinds).

Modelling conventions:
* `reflect.Value{}` (the invalid zero Value) is `Val.vInvalid`; `nil` data is
  an invalid root.
* Addressability (`CanAddr` / `CanSet`) is tracked by a boolean threaded
  through resolution: dereferencing a pointer or indexing a slice yields an
  addressable value, a map element is never addressable, a struct field
  inherits addressability.
* In-place mutation through `reflect` is represented by rebuilding the root
  along the resolved path; because the tree is ownership-acyclic (pointers
  are owned references) this is observationally identical to Go's aliasing
  writes: the only mutation either happens through a pointer / slice backing
  array (shared with the tree) or is rejected by the addressability check.
* A Go runtime panic (`reflect.Value.Set` on an unaddressable value, slice
  bounds violations) is the distinguished outcome `Fail.goPanic`; it is not
  an error value of the program and carries no HTTP status.
* Machine integers are modelled as `Int`/`Nat`; JSON numbers as `Int`
  (the claims under study only exercise integral numbers); the int64/int32
  overflow edge of `strconv.ParseInt` is out of modelled range.
* Error message strings generated by `encoding/json` are represented by
  fixed placeholder strings; the program only branches on the error's
  status class, never on the library text.
* Nil maps and nil slices are not distinguished from empty ones, and
  pointers to pointers are unsupported (`json.Unmarshal` through a nested
  pointer is mapped to a decode failure); the repository's state tree
  contains neither.
-/

/-- JSON documents, the wire values of the store.  Numbers are integral
(the only numeric payloads exercised here). -/
inductive Json where
  | jNull : Json
  | jNum : Int → Json
  | jStr : String → Json
  | jBool : Bool → Json
  | jArr : List Json → Json
  | jObj : List (String × Json) → Json

/-- The struct tag of a Go field, restricted to the two keys the program
reads: `json:"..."` (field naming / omitempty) and `api:"..."` (bounded
collection policy).  `none` models an absent key in `StructTag.Lookup`. -/
structure Tag where
  tagJson : Option String
  tagApi : Option String

def emptyTag : Tag := ⟨none, none⟩

/-- Go types of the modelled universe (needed where the code consults
`reflect.Type`: allocating a fresh element of a collection's element type
in `Server.Put`, and zero values during decoding). -/
inductive Ty where
  | tInt : Ty
  | tStr : Ty
  | tBool : Ty
  | tStruct : List (String × Tag × Ty) → Ty
  | tSlice : Ty → Ty
  | tMap : Ty → Ty
  | tPtr : Ty → Ty

/-- Go values as seen through `reflect.Value`.

* `vStruct` carries the field list in declaration order: Go name, struct
  tag, field value.
* `vSlice`/`vMap`/`vPtr` carry their element type (`reflect.Type.Elem`).
* `vMap` is a string-keyed map (the only key kind the program accepts);
  entries are an association list without duplicate keys.
* `vInvalid` is the zero `reflect.Value`. -/
inductive Val where
  | vInvalid : Val
  | vInt : Int → Val
  | vStr : String → Val
  | vBool : Bool → Val
  | vStruct : List (String × Tag × Val) → Val
  | vSlice : Ty → List Val → Val
  | vMap : Ty → List (String × Val) → Val
  | vPtr : Ty → Option Val → Val

def Val.isInvalid : Val → Bool
  | .vInvalid => true
  | _ => false

def Val.isMapKind : Val → Bool
  | .vMap _ _ => true
  | _ => false

/-- `reflect.Kind.String()` for the kinds we model (used in a Delete error
message). -/
def Val.kindName : Val → String
  | .vInvalid => "invalid"
  | .vInt _ => "int"
  | .vStr _ => "string"
  | .vBool _ => "bool"
  | .vStruct _ => "struct"
  | .vSlice _ _ => "slice"
  | .vMap _ _ => "map"
  | .vPtr _ _ => "ptr"

/-- The error taxonomy of the `state` package: `NotFoundError`,
`BadRequestError`, `InternalServerError` (each a string with a `Status`
method), plus the distinguished outcome of a Go runtime panic, which is not
an error value of the program. -/
inductive Fail where
  | notFound : String → Fail
  | badRequest : String → Fail
  | internal : String → Fail
  | goPanic : String → Fail
deriving DecidableEq

/-- `Statuser.Status`: `http.StatusNotFound` / `http.StatusBadRequest` /
`http.StatusInternalServerError`.  A panic never reaches the HTTP error
writer; it is given the out-of-band value 0. -/
def Fail.status : Fail → Nat
  | .notFound _ => 404
  | .badRequest _ => 400
  | .internal _ => 500
  | .goPanic _ => 0

/-! ## Path chomping (`chompPath`) -/

/-- Split a byte list at the first `'/'`: everything before it, and
everything after it (`strings.Index` plus the two slices in `chompPath`;
"no slash" and "slash in final position" both leave an empty rest). -/
def splitSlash : List Char → List Char × List Char
  | [] => ([], [])
  | c :: cs =>
    if c = '/' then ([], cs)
    else
      let p := splitSlash cs
      (c :: p.1, p.2)

/-- `chompPath` from the source: empty path (or `"/"`) yields two empties;
otherwise strip at most one leading slash and split at the next slash. -/
def chompPathL (path : List Char) : List Char × List Char :=
  match path with
  | [] => ([], [])
  | c :: cs => if c = '/' then splitSlash cs else splitSlash (c :: cs)

/-! ## Integer parsing (`strconv.ParseInt(_, 10, 64)`) -/

def digitsToNat (ds : List Char) : Nat :=
  ds.foldl (fun acc c => acc * 10 + (c.toNat - '0'.toNat)) 0

/-- `strconv.ParseInt(s, 10, 64)`: optional sign followed by a non-empty
run of decimal digits; anything else is an error (`none`).  int64 overflow
is outside the modelled range. -/
def parseGoInt (s : List Char) : Option Int :=
  match s with
  | [] => none
  | '+' :: ds =>
    if ds ≠ [] ∧ ds.all Char.isDigit then some (digitsToNat ds) else none
  | '-' :: ds =>
    if ds ≠ [] ∧ ds.all Char.isDigit then some (-(digitsToNat ds : Int)) else none
  | ds =>
    if ds.all Char.isDigit then some (digitsToNat ds) else none

/-- The slice branch of `nextValue`: parse the segment and bounds-check it;
a parse error, a negative index, and an out-of-range index are all the same
`BadRequestError` (the caller supplies it). -/
def parseGoIdx (s : List Char) (len : Nat) : Option Nat :=
  match parseGoInt s with
  | none => none
  | some d => if d < 0 ∨ (len : Int) ≤ d then none else some d.toNat

/-! ## Field metadata (`fieldIndexByName`) -/

/-- The exportedness test of the source: skip a field whose name is empty
or whose first character is not its own upper-casing. -/
def isExportedName (s : String) : Bool :=
  match s.toList with
  | [] => false
  | c :: _ => c.toUpper = c

/-- The externally visible name of a field: the `json` tag up to the first
comma when the tag is present and non-empty, otherwise the Go field name. -/
def effName (goName : String) (t : Tag) : String :=
  match t.tagJson with
  | none => goName
  | some tg => if tg = "" then goName else String.mk (tg.toList.takeWhile (· ≠ ','))

/-- Assignment into the name→index cache (Go map write: overwrite or add). -/
def insertCache : List (String × Nat) → String → Nat → List (String × Nat)
  | [], k, i => [(k, i)]
  | (k', j) :: rest, k, i =>
    if k' = k then (k, i) :: rest else (k', j) :: insertCache rest k i

/-- The cache-building loop of `fieldIndexByName`: walk the fields in
declaration order, skipping unexported ones, recording `effName ↦ index`
(a later field with the same visible name overwrites an earlier one). -/
def buildCacheAux : Nat → List (String × Tag × Val) → List (String × Nat) → List (String × Nat)
  | _, [], c => c
  | i, (n, t, _) :: fs, c =>
    buildCacheAux (i + 1) fs (if isExportedName n then insertCache c (effName n t) i else c)

def buildCache (fs : List (String × Tag × Val)) : List (String × Nat) :=
  buildCacheAux 0 fs []

def lookupCache : List (String × Nat) → String → Option Nat
  | [], _ => none
  | (k, i) :: rest, name => if k = name then some i else lookupCache rest name

/-- `fieldIndexByName`: look the segment up in the (per-type, pure) cache;
on a hit also return the field's struct tag (`t.Field(dex).Tag`). -/
def fieldIndexByName (fs : List (String × Tag × Val)) (name : String) : Option (Nat × Tag) :=
  match lookupCache (buildCache fs) name with
  | none => none
  | some i =>
    match fs[i]? with
    | some (_, t, _) => some (i, t)
    | none => none

/-! ## String-keyed map primitives -/

def lookupA : List (String × Val) → String → Option Val
  | [], _ => none
  | (k, v) :: es, key => if k = key then some v else lookupA es key

/-- `reflect.Value.SetMapIndex` with a non-zero value: overwrite or add. -/
def setA : List (String × Val) → String → Val → List (String × Val)
  | [], key, v => [(key, v)]
  | (k, w) :: es, key, v =>
    if k = key then (key, v) :: es else (k, w) :: setA es key v

/-- `reflect.Value.SetMapIndex` with the zero Value: delete the key. -/
def removeA : List (String × Val) → String → List (String × Val)
  | [], _ => []
  | (k, w) :: es, key => if k = key then es else (k, w) :: removeA es key

/-! ## `encoding/json` marshalling (restricted to the modelled kinds) -/

/-- Comma-separated parts of a tag value. -/
def splitComma : List Char → List (List Char)
  | [] => [[]]
  | c :: cs =>
    if c = ',' then [] :: splitComma cs
    else
      match splitComma cs with
      | [] => [[c]]
      | p :: ps => (c :: p) :: ps

/-- Does the field's `json` tag carry the `omitempty` option? -/
def hasOmitempty (t : Tag) : Bool :=
  match t.tagJson with
  | none => false
  | some s => ((splitComma s.toList).drop 1).contains "omitempty".toList

/-- `encoding/json.isEmptyValue`: empty string/slice/map, zero number,
false bool, nil pointer. -/
def isEmptyVal : Val → Bool
  | .vInt n => n = 0
  | .vStr s => s = ""
  | .vBool b => b = false
  | .vSlice _ es => es.isEmpty
  | .vMap _ es => es.isEmpty
  | .vPtr _ p => p.isNone
  | _ => false

/-- Byte-wise lexicographic order on keys (Go compares map keys as raw
byte strings when marshalling). -/
def lexLe : List Char → List Char → Bool
  | [], _ => true
  | _ :: _, [] => false
  | a :: as, b :: bs =>
    if a.toNat < b.toNat then true
    else if b.toNat < a.toNat then false
    else lexLe as bs

/-- Insertion sort by key: Go marshals map entries in sorted key order. -/
def insertSorted (e : String × Json) : List (String × Json) → List (String × Json)
  | [] => [e]
  | e' :: es => if lexLe e.1.toList e'.1.toList then e :: e' :: es else e' :: insertSorted e es

def sortByKey : List (String × Json) → List (String × Json)
  | [] => []
  | e :: es => insertSorted e (sortByKey es)

mutual

/-- `json.Marshal` on the modelled universe: structs marshal their exported
fields in declaration order under their visible names (honouring
`omitempty`), slices to arrays, maps to objects with sorted keys, pointers
through to their pointee (`null` when nil). -/
def marshal : Val → Json
  | .vInvalid => .jNull
  | .vInt n => .jNum n
  | .vStr s => .jStr s
  | .vBool b => .jBool b
  | .vStruct fs => .jObj (marshalFields fs)
  | .vSlice _ es => .jArr (marshalList es)
  | .vMap _ es => .jObj (sortByKey (marshalEntries es))
  | .vPtr _ (some w) => marshal w
  | .vPtr _ none => .jNull

def marshalFields : List (String × Tag × Val) → List (String × Json)
  | [] => []
  | (n, t, v) :: fs =>
    if isExportedName n ∧ ¬(hasOmitempty t ∧ isEmptyVal v) then
      (effName n t, marshal v) :: marshalFields fs
    else
      marshalFields fs

def marshalList : List Val → List Json
  | [] => []
  | v :: vs => marshal v :: marshalList vs

def marshalEntries : List (String × Val) → List (String × Json)
  | [] => []
  | (k, v) :: es => (k, marshal v) :: marshalEntries es

end

/-! ## `encoding/json` unmarshalling (restricted to the modelled kinds) -/

mutual

/-- `reflect.Zero` / `reflect.New(...).Elem()` for a modelled type. -/
def zeroVal : Ty → Val
  | .tInt => .vInt 0
  | .tStr => .vStr ""
  | .tBool => .vBool false
  | .tStruct fts => .vStruct (zeroFields fts)
  | .tSlice e => .vSlice e []
  | .tMap e => .vMap e []
  | .tPtr e => .vPtr e none

def zeroFields : List (String × Tag × Ty) → List (String × Tag × Val)
  | [] => []
  | (n, t, ty) :: fts => (n, t, zeroVal ty) :: zeroFields fts

end

/-- Decoding JSON `null`: pointers, slices and maps are reset to nil,
every other kind is left unchanged (no error). -/
def nullInto : Val → Val
  | .vPtr ty _ => .vPtr ty none
  | .vSlice ty _ => .vSlice ty []
  | .vMap ty _ => .vMap ty []
  | v => v

mutual

/-- `json.Unmarshal` of a document into an existing value that is not
itself a pointer (the pointee after the library's one level of
indirection), returning the updated value (`none` is a decode error).
Key behaviours of the library that matter here: decoding an object into a
struct or map *merges* (fields or keys absent from the document keep their
previous value); decoding an array into a slice replaces the whole slice
with freshly decoded elements; a document of the wrong shape for the
target kind is an error.  Struct fields are matched by their visible name
(the case-insensitive fallback of the library is not modelled, nor are
pointers to pointers). -/
def unmarshalNP : Val → Json → Option Val
  | v, .jNull => some (nullInto v)
  | .vInt _, .jNum n => some (.vInt n)
  | .vStr _, .jStr s => some (.vStr s)
  | .vBool _, .jBool b => some (.vBool b)
  | .vStruct fs, .jObj kvs => (structFold fs kvs).map .vStruct
  | .vSlice ty _, .jArr xs => (decodeList ty xs).map (.vSlice ty)
  | .vMap ty es, .jObj kvs => (mapFold ty es kvs).map (.vMap ty)
  | _, _ => none

/-- Fold the document's keys over the struct's fields: a key naming a
visible field decodes into that field in place (indirecting through a
pointer-typed field, allocating when it is nil), an unknown key is
ignored. -/
def structFold (fs : List (String × Tag × Val)) :
    List (String × Json) → Option (List (String × Tag × Val))
  | [] => some fs
  | (k, j) :: kvs =>
    match fieldIndexByName fs k with
    | none => structFold fs kvs
    | some (i, _) =>
      match fs[i]? with
      | none => structFold fs kvs
      | some (n, t, v) =>
        match v, j with
        | .vPtr ty _, .jNull => structFold (fs.set i (n, t, .vPtr ty none)) kvs
        | .vPtr ty (some w), j =>
          match unmarshalNP w j with
          | none => none
          | some w' => structFold (fs.set i (n, t, .vPtr ty (some w'))) kvs
        | .vPtr ty none, j =>
          match unmarshalNP (zeroVal ty) j with
          | none => none
          | some w' => structFold (fs.set i (n, t, .vPtr ty (some w'))) kvs
        | v, j =>
          match unmarshalNP v j with
          | none => none
          | some v' => structFold (fs.set i (n, t, v')) kvs

/-- Decode every array element into a fresh zero value of the element
type (indirecting once through a pointer element type). -/
def decodeList (ty : Ty) : List Json → Option (List Val)
  | [] => some []
  | j :: js =>
    let dec : Option Val :=
      match ty, j with
      | .tPtr e, .jNull => some (.vPtr e none)
      | .tPtr e, j => (unmarshalNP (zeroVal e) j).map (fun w => .vPtr e (some w))
      | ty, j => unmarshalNP (zeroVal ty) j
    match dec with
    | none => none
    | some v =>
      match decodeList ty js with
      | none => none
      | some vs => some (v :: vs)

/-- Fold the document's keys over the map: each key decodes into a fresh
zero element (indirecting once through a pointer element type) and
overwrites; keys absent from the document are kept. -/
def mapFold (ty : Ty) (es : List (String × Val)) :
    List (String × Json) → Option (List (String × Val))
  | [] => some es
  | (k, j) :: kvs =>
    let dec : Option Val :=
      match ty, j with
      | .tPtr e, .jNull => some (.vPtr e none)
      | .tPtr e, j => (unmarshalNP (zeroVal e) j).map (fun w => .vPtr e (some w))
      | ty, j => unmarshalNP (zeroVal ty) j
    match dec with
    | none => none
    | some v => mapFold ty (setA es k v) kvs

end

/-- `json.Unmarshal` into an arbitrary modelled slot: indirect through a
pointer slot (allocating when nil, resetting to nil on `null`), otherwise
decode in place. -/
def unmarshalInto (v : Val) (j : Json) : Option Val :=
  match v, j with
  | .vPtr ty _, .jNull => some (.vPtr ty none)
  | .vPtr ty (some w), j => (unmarshalNP w j).map (fun w' => .vPtr ty (some w'))
  | .vPtr ty none, j => (unmarshalNP (zeroVal ty) j).map (fun w' => .vPtr ty (some w'))
  | v, j => unmarshalNP v j

/-! ## Pointer dereferencing and write-back -/

/-- The `for v.Kind() == reflect.Ptr { v = v.Elem() }` loop at the head of
`nextValue`, threading addressability: `Elem` of a pointer is addressable;
`Elem` of a nil pointer is the invalid Value. -/
def derefA : Val → Bool → Val × Bool
  | .vPtr _ (some w), _ => derefA w true
  | .vPtr _ none, _ => (.vInvalid, true)
  | v, a => (v, a)

/-- Re-wrap a new inner value in the pointer spine of the old value: the
pure-embedding counterpart of mutating through the pointers that
`derefA` stripped (pointers are owned references, so the heap cell a
pointer designates belongs to exactly this slot of the tree). -/
def setPointee : Val → Val → Val
  | .vPtr ty (some w), x => .vPtr ty (some (setPointee w x))
  | _, x => x

/-! ## The bounded-collection tag (`apiTag.Maximum`) -/

/-- `regexp "maximum=(\d+)"`: the first occurrence of the literal
`maximum=` followed by at least one digit; the capture is the maximal
digit run. -/
def findMaximum : List Char → Option (List Char)
  | [] => none
  | c :: cs =>
    if "maximum=".toList.isPrefixOf (c :: cs) then
      let ds := ((c :: cs).drop 8).takeWhile Char.isDigit
      if ds.isEmpty then findMaximum cs else some ds
    else findMaximum cs

/-- `apiTag.Maximum`: no match yields `math.MaxInt32`; a matched digit run
is parsed with `ParseInt(_, 10, 32)`, whose overflow clamp (the ignored
range error leaves the clamped value) is the same bound. -/
def apiMaximum (s : String) : Nat :=
  match findMaximum s.toList with
  | none => 2147483647
  | some ds => min (digitsToNat ds) 2147483647

/-- The maximum taken from a field's struct tag in `Server.Put`:
`tag.Lookup("api")` missing leaves `math.MaxInt32`. -/
def maxOf (t : Tag) : Nat :=
  match t.tagApi with
  | none => 2147483647
  | some s => apiMaximum s

/-! ## The four operations

Each Go loop (`Get`, `Post`, `Put`, `Delete`) repeatedly calls `nextValue`
on a shrinking path.  The loop is translated to structural recursion on a
fuel counter, seeded with `path.length + 1`: every iteration strictly
shrinks the remaining path, so the fuel never runs out (the fuel-exhausted
branch is unreachable for the seeded calls).  `nextValue` is inlined at
each use so that the write-back of the mutated child is available; its
branches are annotated below. -/

def nfMsg (path : String) : String := "'" ++ path ++ "' not found"

/-- Placeholder for the text of an `encoding/json` decode error (the
program never branches on it). -/
def jsonErrMsg : String := "json: cannot unmarshal"

/-- Placeholder for `json.InvalidUnmarshalError` (unmarshalling into a nil
pointer). -/
def jsonNilMsg : String := "json: Unmarshal(nil)"

/-- Placeholder for the text of a `strconv.ParseInt` error. -/
def parseErrMsg : String := "strconv.ParseInt: parsing: invalid syntax"

/-- `Server.Get`'s loop: resolve one segment per iteration; when the
remaining path is exhausted, marshal the value reached. -/
def getGoF : Nat → Val → List Char → Except Fail Json
  | 0, _, _ => .error (.internal "out of fuel")
  | fuel + 1, v, rest =>
    -- nextValue: guard against the invalid Value, deref pointers, chomp.
    if v.isInvalid then .error (.internal "empty value")
    else
      let w := (derefA v true).1
      let p := chompPathL rest
      if p.1.isEmpty then
        -- nextValue returns the dereferenced value with an empty rest;
        -- Get marshals it (`v.Interface()` panics on the invalid Value,
        -- which arises from dereferencing a nil pointer).
        if w.isInvalid then .error (.goPanic "reflect: Interface of invalid Value")
        else .ok (marshal w)
      else
        match w with
        | .vStruct fs =>
          match fieldIndexByName fs (String.mk p.1) with
          | none => .error (.notFound "field not found")
          | some (i, _) =>
            match fs[i]? with
            | none => .error (.internal "empty value") -- cache indices are in range
            | some (_, _, c) =>
              if p.2.isEmpty then .ok (marshal c) else getGoF fuel c p.2
        | .vSlice _ es =>
          match parseGoIdx p.1 es.length with
          | none => .error (.badRequest "invalid integer conversion")
          | some d =>
            match es[d]? with
            | none => .error (.internal "empty value") -- d < es.length by construction
            | some c =>
              if p.2.isEmpty then .ok (marshal c) else getGoF fuel c p.2
        | .vMap _ es =>
          match lookupA es (String.mk p.1) with
          | none => .error (.notFound "key not found")
          | some c =>
            if p.2.isEmpty then .ok (marshal c) else getGoF fuel c p.2
        | _ => .error (.badRequest "type does not allow elements")

/-- `Server.Get`: a nil (`invalid`) root never enters the loop and reports
`'path' not found`. -/
def Server.Get (root : Val) (path : String) : Except Fail Json :=
  if root.isInvalid then .error (.notFound (nfMsg path))
  else getGoF (path.toList.length + 1) root path.toList

/-- The code after `Server.Post`'s loop: the terminal slot is either a
pointer (unmarshal through it; a nil pointer is `InvalidUnmarshalError`,
surfaced as an internal error) or must be addressable (`CanAddr`,
otherwise `'path' not found`); a decode error is an
`InternalServerError`. -/
def terminalPost (path : String) (v : Val) (a : Bool) (body : Json) : Except Fail Val :=
  match v with
  | .vPtr ty (some w) =>
    match unmarshalInto w body with
    | some w' => .ok (.vPtr ty (some w'))
    | none => .error (.internal jsonErrMsg)
  | .vPtr _ none => .error (.internal jsonNilMsg)
  | w =>
    if !a then .error (.notFound (nfMsg path))
    else
      match unmarshalInto w body with
      | some w' => .ok w'
      | none => .error (.internal jsonErrMsg)

/-- `Server.Post`'s loop (`for rest != ""`), returning the updated value at
this level.  On an error the Go code may already have partially decoded
into the terminal slot; errors here carry no tree, and `Server.Post`
reports the original tree only on the success path. -/
def postGoF : Nat → String → Val → Bool → List Char → Json → Except Fail Val
  | 0, _, _, _, _, _ => .error (.internal "out of fuel")
  | fuel + 1, path, v, a, rest, body =>
    if rest.isEmpty then terminalPost path v a body
    else if v.isInvalid then .error (.internal "empty value")
    else
      let pr := derefA v a
      let p := chompPathL rest
      if p.1.isEmpty then
        -- nextValue returned the dereferenced value and an empty rest; the
        -- loop checks it against the invalid Value and then exits.
        if pr.1.isInvalid then .error (.notFound (nfMsg path))
        else terminalPost path pr.1 pr.2 body
      else
        match pr.1 with
        | .vStruct fs =>
          match fieldIndexByName fs (String.mk p.1) with
          | none => .error (.notFound "field not found")
          | some (i, _) =>
            match fs[i]? with
            | none => .error (.internal "empty value") -- cache indices are in range
            | some (n, t, c) =>
              match postGoF fuel path c pr.2 p.2 body with
              | .error e => .error e
              | .ok c' => .ok (setPointee v (.vStruct (fs.set i (n, t, c'))))
        | .vSlice ty es =>
          match parseGoIdx p.1 es.length with
          | none => .error (.badRequest "invalid integer conversion")
          | some d =>
            match es[d]? with
            | none => .error (.internal "empty value") -- d < es.length by construction
            | some c =>
              match postGoF fuel path c true p.2 body with
              | .error e => .error e
              | .ok c' => .ok (setPointee v (.vSlice ty (es.set d c')))
        | .vMap ty es =>
          match lookupA es (String.mk p.1) with
          | none => .error (.notFound "key not found")
          | some c =>
            match postGoF fuel path c false p.2 body with
            | .error e => .error e
            | .ok c' => .ok (setPointee v (.vMap ty (setA es (String.mk p.1) c')))
        | _ => .error (.badRequest "type does not allow elements")

/-- `Server.Post`: returns the path unchanged together with the updated
tree. -/
def Server.Post (root : Val) (path : String) (body : Json) :
    Except Fail (String × Val) :=
  if root.isInvalid then .error (.notFound (nfMsg path))
  else
    match postGoF (path.toList.length + 1) path root false path.toList body with
    | .error e => .error e
    | .ok v' => .ok (path, v')

/-- The element-decoding step of `Server.Put`: `el := v.Type().Elem()`,
indirecting once when the element type is a pointer (`reflect.New`
allocates a fresh pointee, so a `null` body leaves a pointer to the zero
pointee), then `json.Unmarshal` into the fresh value. -/
def decodeElem (ty : Ty) (body : Json) : Option Val :=
  match ty with
  | .tPtr e =>
    match body with
    | .jNull => some (.vPtr e (some (zeroVal e)))
    | b => (unmarshalNP (zeroVal e) b).map (fun w => .vPtr e (some w))
  | e => unmarshalInto (zeroVal e) body

/-- The code after `Server.Put`'s loop: the stopped-at value must be a map
or a slice; a fresh element of the element type is decoded from the body
(a decode failure is a `BadRequestError`, before any mutation); a map gains
or overwrites the key named by the remaining path; a sequence first applies
the bounded-collection eviction `v.Set(v.Slice(L-max+1, L))` when
`L ≥ max`, then appends, and reports `path/<newLength-1>`.
`reflect.Value.Slice` with `max = 0` panics on its bounds, and
`reflect.Value.Set` panics when the slice is not settable. -/
def terminalPut (path : String) (v : Val) (a : Bool) (tag : Tag)
    (rest : List Char) (body : Json) : Except Fail (String × Val) :=
  match v with
  | .vMap ty es =>
    match decodeElem ty body with
    | none => .error (.badRequest jsonErrMsg)
    | some elem => .ok (path, .vMap ty (setA es (String.mk rest) elem))
  | .vSlice ty es =>
    match decodeElem ty body with
    | none => .error (.badRequest jsonErrMsg)
    | some elem =>
      let mx := maxOf tag
      if mx ≤ es.length then
        if mx = 0 then .error (.goPanic "reflect.Value.Slice: slice index out of range")
        else if !a then .error (.goPanic "reflect.Value.Set: unaddressable value")
        else
          let es' := es.drop (es.length + 1 - mx) ++ [elem]
          .ok (path ++ "/" ++ toString (es'.length - 1), .vSlice ty es')
      else if !a then .error (.goPanic "reflect.Value.Set: unaddressable value")
      else
        let es' := es ++ [elem]
        .ok (path ++ "/" ++ toString (es'.length - 1), .vSlice ty es')
  | _ => .error (.badRequest "not allowed")

/-- `Server.Put`'s loop: stop as soon as the current (raw, underefenced)
value is a map and the remaining path has no slash (that remainder is the
key), or the path is exhausted; otherwise take a `nextValue` step,
remembering the struct tag it reports. -/
def putGoF : Nat → String → Val → Bool → Tag → List Char → Json →
    Except Fail (String × Val)
  | 0, _, _, _, _, _, _ => .error (.internal "out of fuel")
  | fuel + 1, path, v, a, tag, rest, body =>
    if v.isMapKind ∧ ¬rest.contains '/' then terminalPut path v a tag rest body
    else if rest.isEmpty then terminalPut path v a tag rest body
    else if v.isInvalid then .error (.internal "empty value")
    else
      let pr := derefA v a
      let p := chompPathL rest
      if p.1.isEmpty then
        -- nextValue returned the dereferenced value, an empty rest and an
        -- empty tag; the loop checks for the invalid Value and iterates.
        if pr.1.isInvalid then .error (.notFound (nfMsg path))
        else putGoF fuel path pr.1 pr.2 emptyTag [] body
      else
        match pr.1 with
        | .vStruct fs =>
          match fieldIndexByName fs (String.mk p.1) with
          | none => .error (.notFound "field not found")
          | some (i, t) =>
            match fs[i]? with
            | none => .error (.internal "empty value") -- cache indices are in range
            | some (n, t', c) =>
              match putGoF fuel path c pr.2 t p.2 body with
              | .error e => .error e
              | .ok (loc, c') =>
                .ok (loc, setPointee v (.vStruct (fs.set i (n, t', c'))))
        | .vSlice ty es =>
          match parseGoIdx p.1 es.length with
          | none => .error (.badRequest "invalid integer conversion")
          | some d =>
            match es[d]? with
            | none => .error (.internal "empty value") -- d < es.length by construction
            | some c =>
              match putGoF fuel path c true emptyTag p.2 body with
              | .error e => .error e
              | .ok (loc, c') => .ok (loc, setPointee v (.vSlice ty (es.set d c')))
        | .vMap ty es =>
          match lookupA es (String.mk p.1) with
          | none => .error (.notFound "key not found")
          | some c =>
            match putGoF fuel path c false emptyTag p.2 body with
            | .error e => .error e
            | .ok (loc, c') =>
              .ok (loc, setPointee v (.vMap ty (setA es (String.mk p.1) c')))
        | _ => .error (.badRequest "type does not allow elements")

/-- `Server.Put`: the location string on success, paired with the resulting
tree.  Every error return of the Go code (including the panics) happens
before the collection is mutated, so the tree component on a failure is the
unchanged input. -/
def Server.Put (root : Val) (path : String) (body : Json) :
    Except Fail String × Val :=
  if root.isInvalid then (.error (.notFound (nfMsg path)), root)
  else
    match putGoF (path.toList.length + 1) path root false emptyTag path.toList body with
    | .error e => (.error e, root)
    | .ok (loc, v') => (.ok loc, v')

/-- The code after `Server.Delete`'s loop: the stopped-at value must be a
map (terminal key looked up, missing key is `NotFoundError`, present key is
deleted) or a slice (terminal segment parsed — a parse error is a
`BadRequestError`, an out-of-range index a `NotFoundError`, an unsettable
slice an `InternalServerError` — then the element is spliced out);
anything else is a `BadRequestError`. -/
def terminalDel (v : Val) (a : Bool) (rest : List Char) : Except Fail Val :=
  match v with
  | .vMap ty es =>
    match lookupA es (String.mk rest) with
    | none => .error (.notFound ("key not found '" ++ String.mk rest ++ "'"))
    | some _ => .ok (.vMap ty (removeA es (String.mk rest)))
  | .vSlice ty es =>
    match parseGoInt rest with
    | none => .error (.badRequest parseErrMsg)
    | some n =>
      if n < 0 ∨ (es.length : Int) ≤ n then
        .error (.notFound ("index '" ++ toString n ++ "' out of range"))
      else if !a then .error (.internal "cannot set slice")
      else .ok (.vSlice ty (es.take n.toNat ++ es.drop (n.toNat + 1)))
  | w => .error (.badRequest ("cannot delete from type " ++ w.kindName))

/-- `Server.Delete`'s loop: stop as soon as the remaining path has no
slash (the raw, underefenced current value is then the collection and the
remainder the key/index); otherwise take a `nextValue` step. -/
def delGoF : Nat → String → Val → Bool → List Char → Except Fail Val
  | 0, _, _, _, _ => .error (.internal "out of fuel")
  | fuel + 1, path, v, a, rest =>
    if ¬rest.contains '/' then terminalDel v a rest
    else if v.isInvalid then .error (.internal "empty value")
    else
      let pr := derefA v a
      let p := chompPathL rest
      if p.1.isEmpty then
        if pr.1.isInvalid then .error (.notFound (nfMsg path))
        else delGoF fuel path pr.1 pr.2 []
      else
        match pr.1 with
        | .vStruct fs =>
          match fieldIndexByName fs (String.mk p.1) with
          | none => .error (.notFound "field not found")
          | some (i, _) =>
            match fs[i]? with
            | none => .error (.internal "empty value") -- cache indices are in range
            | some (n, t, c) =>
              match delGoF fuel path c pr.2 p.2 with
              | .error e => .error e
              | .ok c' => .ok (setPointee v (.vStruct (fs.set i (n, t, c'))))
        | .vSlice ty es =>
          match parseGoIdx p.1 es.length with
          | none => .error (.badRequest "invalid integer conversion")
          | some d =>
            match es[d]? with
            | none => .error (.internal "empty value") -- d < es.length by construction
            | some c =>
              match delGoF fuel path c true p.2 with
              | .error e => .error e
              | .ok c' => .ok (setPointee v (.vSlice ty (es.set d c')))
        | .vMap ty es =>
          match lookupA es (String.mk p.1) with
          | none => .error (.notFound "key not found")
          | some c =>
            match delGoF fuel path c false p.2 with
            | .error e => .error e
            | .ok c' => .ok (setPointee v (.vMap ty (setA es (String.mk p.1) c')))
        | _ => .error (.badRequest "type does not allow elements")

/-- `Server.Delete`: the resulting tree on success; every error return of
the Go code happens before any mutation, so an error leaves the tree
unchanged. -/
def Server.Delete (root : Val) (path : String) : Except Fail Val :=
  if root.isInvalid then .error (.notFound (nfMsg path))
  else delGoF (path.toList.length + 1) path root false path.toList

/-! ## The test fixture of the package (`state_test.go`)

`TestStruct` and a handful of checks replicating the package's own tests,
validating the embedding end to end. -/

def innerStructTy : Ty := .tStruct [("Bool", emptyTag, .tBool)]

def testStructTy : Ty := .tStruct
  [ ("Integer", ⟨some "integer,omitempty", none⟩, .tInt)
  , ("String", ⟨some "String", none⟩, .tStr)
  , ("Modify", emptyTag, .tStr)
  , ("Struct", emptyTag, innerStructTy)
  , ("Slice", emptyTag, .tSlice .tInt)
  , ("Map", emptyTag, .tMap .tInt)
  , ("SlicePtr", emptyTag, .tSlice (.tPtr .tInt))
  , ("MapPtr", emptyTag, .tMap (.tPtr .tInt))
  , ("Ptr", emptyTag, .tPtr .tInt)
  , ("nonExported", emptyTag, .tStr) ]

/-- A `&TestStruct{...}` value (the tests always wrap a pointer). -/
def mkTester (integer : Int) (str modify : String) (bool : Bool)
    (slice : List Val) (mp : List (String × Val))
    (slicePtr : List Val) (mapPtr : List (String × Val)) (ptr : Option Val) : Val :=
  .vPtr testStructTy (some (.vStruct
    [ ("Integer", ⟨some "integer,omitempty", none⟩, .vInt integer)
    , ("String", ⟨some "String", none⟩, .vStr str)
    , ("Modify", emptyTag, .vStr modify)
    , ("Struct", emptyTag, .vStruct [("Bool", emptyTag, .vBool bool)])
    , ("Slice", emptyTag, .vSlice .tInt slice)
    , ("Map", emptyTag, .vMap .tInt mp)
    , ("SlicePtr", emptyTag, .vSlice (.tPtr .tInt) slicePtr)
    , ("MapPtr", emptyTag, .vMap (.tPtr .tInt) mapPtr)
    , ("Ptr", emptyTag, .vPtr .tInt ptr)
    , ("nonExported", emptyTag, .vStr "") ]))

def testerGet : Val := mkTester (-6) "blah" "empty" true [] [] [] [] none

-- TestGet
example : Server.Get testerGet "integer" = .ok (.jNum (-6)) := rfl
example : Server.Get testerGet "Struct/Bool" = .ok (.jBool true) := rfl
example : Server.Get testerGet "Blah" = .error (.notFound "field not found") := rfl
example : (Fail.notFound "field not found").status = 404 := rfl

-- TestPost
example :
    (Server.Post testerGet "Modify" (.jStr "test")).toOption.map
      (fun p => (p.1, Server.Get p.2 "Modify"))
      = some ("Modify", .ok (.jStr "test")) := rfl

/-- The field list behind `testerGet`'s pointer, spelled out. -/
def testerGetFields : List (String × Tag × Val) :=
  [ ("Integer", ⟨some "integer,omitempty", none⟩, .vInt (-6))
  , ("String", ⟨some "String", none⟩, .vStr "blah")
  , ("Modify", emptyTag, .vStr "empty")
  , ("Struct", emptyTag, .vStruct [("Bool", emptyTag, .vBool true)])
  , ("Slice", emptyTag, .vSlice .tInt [])
  , ("Map", emptyTag, .vMap .tInt [])
  , ("SlicePtr", emptyTag, .vSlice (.tPtr .tInt) [])
  , ("MapPtr", emptyTag, .vMap (.tPtr .tInt) [])
  , ("Ptr", emptyTag, .vPtr .tInt none)
  , ("nonExported", emptyTag, .vStr "") ]

def testerDel : Val := mkTester 0 "" "" false
  [.vInt 1, .vInt 2, .vInt 3] [("one", .vInt 1), ("two", .vInt 2)] [] [] none

-- TestDelete
example :
    (Server.Delete testerDel "Slice/0").toOption.map (fun v => Server.Get v "Slice")
      = some (.ok (.jArr [.jNum 2, .jNum 3])) := rfl
example :
    (Server.Delete testerDel "Map/one").toOption.map (fun v => Server.Get v "Map")
      = some (.ok (.jObj [("two", .jNum 2)])) := rfl
example : Server.Delete testerDel "Map/three" = .error (.notFound "key not found 'three'") := rfl

def testerPut : Val := mkTester 0 "" "" false
  [.vInt 1, .vInt 2, .vInt 3] [("one", .vInt 1)] [] [] none

/-- The field list behind `testerPut`'s pointer, spelled out. -/
def testerPutFields : List (String × Tag × Val) :=
  [ ("Integer", ⟨some "integer,omitempty", none⟩, .vInt 0)
  , ("String", ⟨some "String", none⟩, .vStr "")
  , ("Modify", emptyTag, .vStr "")
  , ("Struct", emptyTag, .vStruct [("Bool", emptyTag, .vBool false)])
  , ("Slice", emptyTag, .vSlice .tInt [.vInt 1, .vInt 2, .vInt 3])
  , ("Map", emptyTag, .vMap .tInt [("one", .vInt 1)])
  , ("SlicePtr", emptyTag, .vSlice (.tPtr .tInt) [])
  , ("MapPtr", emptyTag, .vMap (.tPtr .tInt) [])
  , ("Ptr", emptyTag, .vPtr .tInt none)
  , ("nonExported", emptyTag, .vStr "") ]

-- TestPut
example : (Server.Put testerPut "Slice" (.jNum 4)).1 = .ok "Slice/3" := rfl
example :
    Server.Get (Server.Put testerPut "Slice" (.jNum 4)).2 "Slice"
      = .ok (.jArr [.jNum 1, .jNum 2, .jNum 3, .jNum 4]) := rfl
example : (Server.Put testerPut "Map/two" (.jNum 2)).1 = .ok "Map/two" := rfl
example :
    Server.Get (Server.Put testerPut "Map/two" (.jNum 2)).2 "Map"
      = .ok (.jObj [("one", .jNum 1), ("two", .jNum 2)]) := rfl

def testerPtr : Val := mkTester 0 "" "" false [] []
  [.vPtr .tInt (some (.vInt 5))] [("five", .vPtr .tInt (some (.vInt 5)))]
  (some (.vInt 5))

-- TestPointers
example : Server.Get testerPtr "Ptr" = .ok (.jNum 5) := rfl
example : Server.Get testerPtr "SlicePtr/0" = .ok (.jNum 5) := rfl
example : Server.Get testerPtr "MapPtr/five" = .ok (.jNum 5) := rfl
example :
    (Server.Post testerPtr "Ptr" (.jNum 6)).toOption.map
      (fun p => (p.1, Server.Get p.2 "Ptr")) = some ("Ptr", .ok (.jNum 6)) := rfl
example :
    (Server.Post testerPtr "SlicePtr/0" (.jNum 6)).toOption.map
      (fun p => (p.1, Server.Get p.2 "SlicePtr/0"))
      = some ("SlicePtr/0", .ok (.jNum 6)) := rfl
example :
    (Server.Post testerPtr "MapPtr/five" (.jNum 6)).toOption.map
      (fun p => (p.1, Server.Get p.2 "MapPtr/five"))
      = some ("MapPtr/five", .ok (.jNum 6)) := rfl
example : (Server.Put testerPtr "SlicePtr" (.jNum 7)).1 = .ok "SlicePtr/1" := rfl
example :
    Server.Get (Server.Put testerPtr "SlicePtr" (.jNum 7)).2 "SlicePtr/1"
      = .ok (.jNum 7) := rfl
example : (Server.Put testerPtr "MapPtr/seven" (.jNum 7)).1 = .ok "MapPtr/seven" := rfl
example :
    Server.Get (Server.Put testerPtr "MapPtr/seven" (.jNum 7)).2 "MapPtr/seven"
      = .ok (.jNum 7) := rfl

/-- The `Stream` record of `src/api.go` (`URL`, `Name`, `Visible`, with
their `json` tags). -/
def streamTy : Ty :=
  .tStruct [("URL", ⟨some "url", none⟩, .tStr),
            ("Name", ⟨some "name", none⟩, .tStr),
            ("Visible", ⟨some "visible", none⟩, .tBool)]

/-- The tag of a `streams` field bounded to one element
(`json:"streams" api:"maximum=1"`), as in the walkthrough scenario. -/
def streamsTag : Tag := ⟨some "streams", some "maximum=1"⟩

/-- The stream `{"url":"http://a","name":"a"}` already present. -/
def streamA : Val :=
  .vStruct [("URL", ⟨some "url", none⟩, .vStr "http://a"),
            ("Name", ⟨some "name", none⟩, .vStr "a"),
            ("Visible", ⟨some "visible", none⟩, .vBool false)]

/-- The body of the second append. -/
def streamBodyB : Json := .jObj [("url", .jStr "http://b"), ("name", .jStr "b")]

/-- The element the second append decodes: the body unmarshalled into a
zero `Stream` (so `Visible` keeps its zero value). -/
def streamB : Val :=
  .vStruct [("URL", ⟨some "url", none⟩, .vStr "http://b"),
            ("Name", ⟨some "name", none⟩, .vStr "b"),
            ("Visible", ⟨some "visible", none⟩, .vBool false)]

/-- The fields of a root record holding only the bounded `streams`
sequence, currently with one element. -/
def streamsFields : List (String × Tag × Val) :=
  [("Streams", streamsTag, .vSlice streamTy [streamA])]

/-- A root as the server holds it (`reflect.ValueOf(state)` where `state`
is a pointer): a pointer to the record. -/
def streamsRoot : Val :=
  .vPtr (.tStruct [("Streams", streamsTag, .tSlice streamTy)])
    (some (.vStruct streamsFields))

/-! ## Normalized paths and the resolution locator

General theorems about the operations are stated over paths given as a
list of segments (non-empty, slash-free), joined by single slashes — the
normalized textual form.  `navClean` performs exactly one `nextValue`
step per segment (dereference pointers, then struct-field / slice-index /
map-key selection with the same lookup functions and the same
addressability and tag bookkeeping as the operations), and is used to
phrase "the path resolves to ..." hypotheses. -/

def Val.isPtrKind : Val → Bool
  | .vPtr _ _ => true
  | _ => false

def cleanSeg (s : List Char) : Bool := !s.isEmpty && !s.contains '/'

def segsClean (ss : List (List Char)) : Bool := ss.all cleanSeg

def joinSegs : List (List Char) → List Char
  | [] => []
  | [s] => s
  | s :: ss => s ++ '/' :: joinSegs ss

/-- One `nextValue` step per segment; returns the raw (underefenced) value
reached, its addressability, and the struct tag reported by the last step
(a field's tag after a record step, the empty tag otherwise), mirroring the
loops of the four operations on normalized paths. -/
def navClean : Val → Bool → Tag → List (List Char) → Option (Val × Bool × Tag)
  | v, a, t, [] => some (v, a, t)
  | v, a, _, s :: ss =>
    if v.isInvalid then none
    else
      let pr := derefA v a
      match pr.1 with
      | .vStruct fs =>
        match fieldIndexByName fs (String.mk s) with
        | none => none
        | some (i, t') =>
          match fs[i]? with
          | none => none
          | some (_, _, c) => navClean c pr.2 t' ss
      | .vSlice _ es =>
        match parseGoIdx s es.length with
        | none => none
        | some d =>
          match es[d]? with
          | none => none
          | some c => navClean c true emptyTag ss
      | .vMap _ es =>
        match lookupA es (String.mk s) with
        | none => none
        | some c => navClean c false emptyTag ss
      | _ => none

/-! ### Path lemmas -/

theorem cleanSeg_iff {s : List Char} : cleanSeg s = true ↔ s ≠ [] ∧ '/' ∉ s := by
  simp [cleanSeg]

theorem splitSlash_no_slash {a : List Char} (h : '/' ∉ a) :
    splitSlash a = (a, []) := by
  induction a with
  | nil => rfl
  | cons c cs ih =>
    have hc : ¬c = '/' := by
      intro hc; exact h (by simp [hc])
    have h2 : '/' ∉ cs := fun hm => h (List.mem_cons_of_mem _ hm)
    simp only [splitSlash, if_neg hc, ih h2]

theorem splitSlash_append {a r : List Char} (h : '/' ∉ a) :
    splitSlash (a ++ '/' :: r) = (a, r) := by
  induction a with
  | nil => simp [splitSlash]
  | cons c cs ih =>
    have hc : ¬c = '/' := by
      intro hc; exact h (by simp [hc])
    have h2 : '/' ∉ cs := fun hm => h (List.mem_cons_of_mem _ hm)
    simp only [List.cons_append, splitSlash, List.append_eq, if_neg hc, ih h2]

theorem chompPathL_clean {a : List Char} (h : cleanSeg a = true) :
    chompPathL a = (a, []) := by
  obtain ⟨hne, hmem⟩ := cleanSeg_iff.mp h
  match a, hne with
  | c :: cs, _ =>
    have hc : ¬c = '/' := by
      intro hc; exact hmem (by simp [hc])
    simp only [chompPathL, if_neg hc]
    exact splitSlash_no_slash hmem

theorem chompPathL_clean_sep {a r : List Char} (h : cleanSeg a = true) :
    chompPathL (a ++ '/' :: r) = (a, r) := by
  obtain ⟨hne, hmem⟩ := cleanSeg_iff.mp h
  match a, hne with
  | c :: cs, _ =>
    have hc : ¬c = '/' := by
      intro hc; exact hmem (by simp [hc])
    simp only [List.cons_append, chompPathL, if_neg hc]
    exact splitSlash_append hmem

theorem joinSegs_cons {s : List Char} {ss : List (List Char)} (h : ss ≠ []) :
    joinSegs (s :: ss) = s ++ '/' :: joinSegs ss := by
  match ss, h with
  | s' :: ss', _ => rfl

theorem joinSegs_ne_nil {ss : List (List Char)} (h : ss ≠ []) (hc : segsClean ss = true) :
    joinSegs ss ≠ [] := by
  match ss, h with
  | [s], _ =>
    have := (cleanSeg_iff.mp (by simpa [segsClean] using hc)).1
    simpa [joinSegs] using this
  | s :: s' :: ss', _ =>
    have hs : cleanSeg s = true := by
      simp [segsClean] at hc; exact hc.1
    have := (cleanSeg_iff.mp hs).1
    simp only [joinSegs]
    intro hcontra
    exact this (List.append_eq_nil.mp hcontra).1

/-- On a normalized non-empty path, one chomp produces the first segment
and the join of the rest. -/
theorem chompPathL_joinSegs {s : List Char} {ss : List (List Char)}
    (hs : cleanSeg s = true) :
    chompPathL (joinSegs (s :: ss)) = (s, joinSegs ss) := by
  match ss with
  | [] => exact chompPathL_clean hs
  | s' :: ss' => exact chompPathL_clean_sep hs

/-! ### Dereference / write-back lemmas -/

theorem derefA_not_ptr : ∀ (v : Val) (a : Bool), ((derefA v a).1).isPtrKind = false
  | .vPtr _ (some w), _ => derefA_not_ptr w true
  | .vPtr _ none, _ => rfl
  | .vInvalid, _ => rfl
  | .vInt _, _ => rfl
  | .vStr _, _ => rfl
  | .vBool _, _ => rfl
  | .vStruct _, _ => rfl
  | .vSlice _ _, _ => rfl
  | .vMap _ _, _ => rfl

theorem derefA_of_not_ptr {v : Val} {a : Bool} (h : v.isPtrKind = false) :
    derefA v a = (v, a) := by
  cases v <;> simp_all [derefA, Val.isPtrKind]

/-- The value component of a dereference does not depend on the incoming
addressability. -/
theorem derefA_fst : ∀ (v : Val) (a b : Bool), (derefA v a).1 = (derefA v b).1
  | .vPtr _ (some _), _, _ => rfl
  | .vPtr _ none, _, _ => rfl
  | .vInvalid, _, _ => rfl
  | .vInt _, _, _ => rfl
  | .vStr _, _, _ => rfl
  | .vBool _, _, _ => rfl
  | .vStruct _, _, _ => rfl
  | .vSlice _ _, _, _ => rfl
  | .vMap _ _, _, _ => rfl

/-- Re-wrapping a non-pointer value and dereferencing again lands exactly on
that value, with the addressability the original dereference produced
(provided the original chain did not end in a nil pointer). -/
theorem derefA_setPointee : ∀ (v : Val) (x : Val) (a : Bool),
    x.isPtrKind = false → ((derefA v a).1).isInvalid = false →
    derefA (setPointee v x) a = (x, (derefA v a).2)
  | .vPtr _ (some w), x, _, hx, hv => by
    simp only [setPointee, derefA]
    exact derefA_setPointee w x true hx (by simpa [derefA] using hv)
  | .vPtr _ none, _, _, _, hv => by simp [derefA, Val.isInvalid] at hv
  | .vInvalid, _, _, _, hv => by simp [derefA, Val.isInvalid] at hv
  | .vInt _, x, a, hx, _ => by simp [setPointee, derefA_of_not_ptr hx, derefA]
  | .vStr _, x, a, hx, _ => by simp [setPointee, derefA_of_not_ptr hx, derefA]
  | .vBool _, x, a, hx, _ => by simp [setPointee, derefA_of_not_ptr hx, derefA]
  | .vStruct _, x, a, hx, _ => by simp [setPointee, derefA_of_not_ptr hx, derefA]
  | .vSlice _ _, x, a, hx, _ => by simp [setPointee, derefA_of_not_ptr hx, derefA]
  | .vMap _ _, x, a, hx, _ => by simp [setPointee, derefA_of_not_ptr hx, derefA]

theorem setPointee_not_invalid : ∀ (v : Val) {x : Val}, x.isInvalid = false →
    (setPointee v x).isInvalid = false
  | .vPtr _ (some _), _, _ => rfl
  | .vPtr _ none, _, hx => hx
  | .vInvalid, _, hx => hx
  | .vInt _, _, hx => hx
  | .vStr _, _, hx => hx
  | .vBool _, _, hx => hx
  | .vStruct _, _, hx => hx
  | .vSlice _ _, _, hx => hx
  | .vMap _ _, _, hx => hx

/-- Marshalling ignores the pointer spine (a pointer marshals as its
pointee), so dereferencing first does not change the document. -/
theorem marshal_derefA : ∀ (v : Val) (a : Bool),
    ((derefA v a).1).isInvalid = false →
    marshal ((derefA v a).1) = marshal v
  | .vPtr _ (some w), _, hv => by
    simp only [derefA, marshal]
    exact marshal_derefA w true (by simpa [derefA] using hv)
  | .vPtr _ none, _, hv => by simp [derefA, Val.isInvalid] at hv
  | .vInvalid, _, hv => by simp [derefA, Val.isInvalid] at hv
  | .vInt _, _, _ => rfl
  | .vStr _, _, _ => rfl
  | .vBool _, _, _ => rfl
  | .vStruct _, _, _ => rfl
  | .vSlice _ _, _, _ => rfl
  | .vMap _ _, _, _ => rfl

/-! ### Field-cache and association-list lemmas -/

/-- The cache built by `fieldIndexByName` depends only on the names and
tags of the fields, so replacing a field's value leaves it unchanged. -/
theorem buildCacheAux_set {fs : List (String × Tag × Val)} :
    ∀ (j : Nat) (k : Nat) (c : List (String × Nat)) {n : String} {t : Tag} {y x : Val},
    fs[k]? = some (n, t, y) →
    buildCacheAux j (fs.set k (n, t, x)) c = buildCacheAux j fs c := by
  induction fs with
  | nil => intro j k c n t y x h; simp at h
  | cons f fs ih =>
    intro j k c n t y x h
    match k with
    | 0 =>
      simp only [List.getElem?_cons_zero, Option.some_inj] at h
      subst h
      rfl
    | k' + 1 =>
      simp only [List.getElem?_cons_succ] at h
      simp only [List.set]
      simp only [buildCacheAux]
      exact ih (j + 1) k' _ h

theorem fieldIndexByName_set {fs : List (String × Tag × Val)} {k : Nat}
    {n name : String} {t : Tag} {y x : Val}
    (h : fs[k]? = some (n, t, y)) :
    fieldIndexByName (fs.set k (n, t, x)) name
      = (fieldIndexByName fs name).map
          (fun p => (p.1, if p.1 = k then t else p.2)) := by
  unfold fieldIndexByName buildCache
  rw [buildCacheAux_set 0 k [] h]
  cases hl : lookupCache (buildCacheAux 0 fs []) name with
  | none => rfl
  | some i =>
    simp only
    by_cases hik : i = k
    · subst hik
      have hlen : i < fs.length := by
        cases hlt : Nat.decLt i fs.length with
        | isTrue hh => exact hh
        | isFalse hh =>
          rw [List.getElem?_eq_none (Nat.le_of_not_lt hh)] at h
          exact absurd h (by simp)
      rw [List.getElem?_set_self hlen, h]
      simp
    · rw [List.getElem?_set_ne (fun hh => hik hh.symm)]
      cases fs[i]? with
      | none => simp
      | some f => simp [hik]

/-- Replacing a field's value with the same name and tag leaves
`fieldIndexByName` completely unchanged. -/
theorem fieldIndexByName_set_same {fs : List (String × Tag × Val)} {k : Nat}
    {n name : String} {t : Tag} {y x : Val}
    (h : fs[k]? = some (n, t, y)) :
    fieldIndexByName (fs.set k (n, t, x)) name = fieldIndexByName fs name := by
  rw [fieldIndexByName_set h]
  cases hf : fieldIndexByName fs name with
  | none => rfl
  | some p =>
    simp only [Option.map_some']
    by_cases hik : p.1 = k
    · -- the tag reported for index k is the tag stored there, which is t
      unfold fieldIndexByName at hf
      cases hl : lookupCache (buildCache fs) name with
      | none => rw [hl] at hf; simp at hf
      | some i =>
        rw [hl] at hf
        simp only at hf
        cases hg : fs[i]? with
        | none => rw [hg] at hf; simp at hf
        | some f =>
          rw [hg] at hf
          simp only [Option.some_inj] at hf
          subst hf
          simp only at hik
          subst hik
          rw [hg] at h
          cases h
          simp
    · simp [hik]

theorem lookupA_setA_self (es : List (String × Val)) (k : String) (v : Val) :
    lookupA (setA es k v) k = some v := by
  induction es with
  | nil => simp [setA, lookupA]
  | cons e es ih =>
    by_cases h : e.1 = k
    · simp [setA, h, lookupA]
    · simp [setA, h, lookupA, ih]

/-! ### Resolution lemmas for the operations on normalized paths -/

theorem navClean_not_invalid {v : Val} {a b : Bool} {t t' : Tag}
    {s₀ : List Char} {ss : List (List Char)} {s : Val}
    (h : navClean v a t (s₀ :: ss) = some (s, b, t')) : v.isInvalid = false := by
  by_cases hv : v.isInvalid = true
  · rw [navClean, if_pos hv] at h; exact absurd h (by simp)
  · simpa using hv

/-- Reading along a normalized path returns the marshalling of the value
the locator finds (provided that value is not a nil-pointer chain). -/
theorem getGoF_navClean :
    ∀ (ss : List (List Char)) (v : Val) (a : Bool) (t : Tag) (s : Val) (b : Bool)
      (t' : Tag) (fuel : Nat),
    navClean v a t ss = some (s, b, t') →
    segsClean ss = true →
    ((derefA s true).1).isInvalid = false →
    (joinSegs ss).length < fuel →
    getGoF fuel v (joinSegs ss) = .ok (marshal s) := by
  intro ss
  induction ss with
  | nil =>
    intro v a t s b t' fuel hnav _ hder hfuel
    simp only [navClean, Option.some_inj] at hnav
    injection hnav with h1 h23
    injection h23 with h2 h3
    subst h1; subst h2; subst h3
    match fuel, hfuel with
    | fuel + 1, _ =>
      have hv : v.isInvalid = false := by
        by_cases hv : v.isInvalid = true
        · cases v <;> simp_all [Val.isInvalid, derefA]
        · simpa using hv
      simp only [getGoF, hv, Bool.false_eq_true, if_false, joinSegs, chompPathL,
        List.isEmpty_nil, if_true, hder, if_false]
      rw [marshal_derefA v true hder]
  | cons s₀ ss ih =>
    intro v a t s b t' fuel hnav hclean hder hfuel
    have hs₀ : cleanSeg s₀ = true := by
      simp only [segsClean, List.all_cons, Bool.and_eq_true] at hclean
      exact hclean.1
    have hcl' : segsClean ss = true := by
      simp only [segsClean, List.all_cons, Bool.and_eq_true] at hclean
      exact hclean.2
    have hv : v.isInvalid = false := navClean_not_invalid hnav
    have hs₀ne : s₀ ≠ [] := (cleanSeg_iff.mp hs₀).1
    have hs₀len : 1 ≤ s₀.length := by
      cases s₀ with
      | nil => exact absurd rfl hs₀ne
      | cons c cs => simp
    match fuel, hfuel with
    | fuel + 1, hfuel =>
      have hjlen : (joinSegs (s₀ :: ss)).length < fuel + 1 := hfuel
      rw [navClean, if_neg (by simp [hv])] at hnav
      rcases hd : derefA v a with ⟨w, a2⟩
      rw [hd] at hnav
      simp only at hnav
      have hdt : (derefA v true).1 = w := by rw [derefA_fst v true a, hd]
      have hrec : ∀ (c : Val) (a3 : Bool) (t3 : Tag),
          navClean c a3 t3 ss = some (s, b, t') →
          (if (joinSegs ss).isEmpty = true then Except.ok (marshal c)
            else getGoF fuel c (joinSegs ss)) = .ok (marshal s) := by
        intro c a3 t3 hnav'
        cases ss with
        | nil =>
          simp only [navClean, Option.some_inj] at hnav'
          have : c = s := congrArg Prod.fst hnav'
          subst this
          simp [joinSegs]
        | cons s₁ ss' =>
          have hne : joinSegs (s₁ :: ss') ≠ [] :=
            joinSegs_ne_nil (by simp) hcl'
          rw [if_neg (by simpa [List.isEmpty_iff] using hne)]
          refine ih c a3 t3 s b t' fuel hnav' hcl' hder ?_
          have : (joinSegs (s₀ :: s₁ :: ss')).length
              = s₀.length + 1 + (joinSegs (s₁ :: ss')).length := by
            rw [joinSegs_cons (by simp)]
            simp [List.length_append]
            omega
          omega
      simp only [getGoF, hv, Bool.false_eq_true, if_false, hdt,
        chompPathL_joinSegs hs₀,
        (by simpa [List.isEmpty_iff] using hs₀ne : s₀.isEmpty = false),
        Bool.false_eq_true, if_false]
      cases w with
      | vStruct fs =>
        simp only at hnav
        cases hfi : fieldIndexByName fs (String.mk s₀) with
        | none => rw [hfi] at hnav; simp at hnav
        | some it =>
          obtain ⟨i, tf⟩ := it
          rw [hfi] at hnav
          simp only at hnav
          simp only [hfi]
          cases hge : fs[i]? with
          | none => rw [hge] at hnav; simp at hnav
          | some f =>
            obtain ⟨nf, tf2, c⟩ := f
            rw [hge] at hnav
            simp only at hnav
            simp only [hge]
            exact hrec c a2 tf hnav
      | vSlice ty es =>
        simp only at hnav
        cases hfi : parseGoIdx s₀ es.length with
        | none => rw [hfi] at hnav; simp at hnav
        | some d =>
          rw [hfi] at hnav
          simp only at hnav
          simp only [hfi]
          cases hge : es[d]? with
          | none => rw [hge] at hnav; simp at hnav
          | some c =>
            rw [hge] at hnav
            simp only at hnav
            simp only [hge]
            exact hrec c true emptyTag hnav
      | vMap ty es =>
        simp only at hnav
        cases hfi : lookupA es (String.mk s₀) with
        | none => rw [hfi] at hnav; simp at hnav
        | some c =>
          rw [hfi] at hnav
          simp only at hnav
          simp only [hfi]
          exact hrec c false emptyTag hnav
      | vInvalid => simp at hnav
      | vInt n => simp at hnav
      | vStr str => simp at hnav
      | vBool bb => simp at hnav
      | vPtr ty p => simp at hnav

/-! ### Scalar slots -/

def isScalarVal : Val → Bool
  | .vInt _ => true
  | .vStr _ => true
  | .vBool _ => true
  | _ => false

/-- The body is a scalar document of the same kind as the slot. -/
def scalarFits : Val → Json → Bool
  | .vInt _, .jNum _ => true
  | .vStr _, .jStr _ => true
  | .vBool _, .jBool _ => true
  | _, _ => false

/-- Decoding a kind-matched scalar document into a scalar slot succeeds,
and the updated slot marshals back to exactly that document. -/
theorem scalar_roundtrip {s : Val} {b : Json} (h : scalarFits s b = true) :
    ∃ s', unmarshalInto s b = some s' ∧ marshal s' = b ∧ isScalarVal s' = true := by
  cases s <;> cases b <;> simp_all [scalarFits] <;>
    exact ⟨_, rfl, rfl, rfl⟩

theorem isScalar_not_ptr {s : Val} (h : isScalarVal s = true) : s.isPtrKind = false := by
  cases s <;> simp_all [isScalarVal, Val.isPtrKind]

theorem isScalar_not_invalid {s : Val} (h : isScalarVal s = true) : s.isInvalid = false := by
  cases s <;> simp_all [isScalarVal, Val.isInvalid]

theorem isScalar_deref {s : Val} (h : isScalarVal s = true) :
    (derefA s true).1 = s := by
  cases s <;> simp_all [isScalarVal, derefA]

/-- `fieldIndexByName` reports the tag stored at the index it returns. -/
theorem fieldIndexByName_get {fs : List (String × Tag × Val)} {name : String}
    {i : Nat} {t : Tag} (h : fieldIndexByName fs name = some (i, t)) :
    ∃ n y, fs[i]? = some (n, t, y) := by
  unfold fieldIndexByName at h
  cases hl : lookupCache (buildCache fs) name with
  | none => rw [hl] at h; simp at h
  | some j =>
    rw [hl] at h
    simp only at h
    cases hg : fs[j]? with
    | none => rw [hg] at h; simp at h
    | some f =>
      rw [hg] at h
      simp only [Option.some_inj] at h
      obtain ⟨n, t0, y⟩ := f
      simp only at h
      injection h with h1 h2
      subst h1
      cases h2
      exact ⟨n, y, hg⟩

/-- Writing a kind-matched document into an addressable scalar slot along a
normalized path succeeds, and the locator finds the decoded value at the
same path of the resulting tree (everything else about the located slot —
addressability, reported tag — is unchanged). -/
theorem postGoF_navClean :
    ∀ (ss : List (List Char)) (v : Val) (a : Bool) (t : Tag) (s s' : Val)
      (t' : Tag) (fuel : Nat) (path : String) (body : Json),
    navClean v a t ss = some (s, true, t') →
    segsClean ss = true →
    isScalarVal s = true →
    unmarshalInto s body = some s' →
    (joinSegs ss).length < fuel →
    ∃ v', postGoF fuel path v a (joinSegs ss) body = .ok v' ∧
      navClean v' a t ss = some (s', true, t') := by
  intro ss
  induction ss with
  | nil =>
    intro v a t s s' t' fuel path body hnav _ hscal hum hfuel
    simp only [navClean, Option.some_inj] at hnav
    injection hnav with h1 h23
    injection h23 with h2 h3
    subst h1; subst h3
    subst h2
    match fuel, hfuel with
    | fuel + 1, _ =>
      refine ⟨s', ?_, rfl⟩
      simp only [postGoF, joinSegs, List.isEmpty_nil, if_true]
      cases v with
      | vInt n => simp [terminalPost, hum]
      | vStr str => simp [terminalPost, hum]
      | vBool bb => simp [terminalPost, hum]
      | vInvalid => simp [isScalarVal] at hscal
      | vStruct fs => simp [isScalarVal] at hscal
      | vSlice ty es => simp [isScalarVal] at hscal
      | vMap ty es => simp [isScalarVal] at hscal
      | vPtr ty p => simp [isScalarVal] at hscal
  | cons s₀ ss ih =>
    intro v a t s s' t' fuel path body hnav hclean hscal hum hfuel
    have hs₀ : cleanSeg s₀ = true := by
      simp only [segsClean, List.all_cons, Bool.and_eq_true] at hclean
      exact hclean.1
    have hcl' : segsClean ss = true := by
      simp only [segsClean, List.all_cons, Bool.and_eq_true] at hclean
      exact hclean.2
    have hv : v.isInvalid = false := navClean_not_invalid hnav
    have hs₀ne : s₀ ≠ [] := (cleanSeg_iff.mp hs₀).1
    have hjoinne : joinSegs (s₀ :: ss) ≠ [] := joinSegs_ne_nil (by simp) hclean
    have hs₀len : 1 ≤ s₀.length := by
      cases s₀ with
      | nil => exact absurd rfl hs₀ne
      | cons c cs => simp
    match fuel, hfuel with
    | fuel + 1, hfuel =>
      have hfuel' : (joinSegs ss).length < fuel := by
        cases ss with
        | nil =>
          rw [show joinSegs [s₀] = s₀ from rfl] at hfuel
          simp only [joinSegs, List.length_nil]
          omega
        | cons s₁ ss' =>
          rw [joinSegs_cons (by simp)] at hfuel
          simp only [List.length_append, List.length_cons] at hfuel
          omega
      rw [navClean, if_neg (by simp [hv])] at hnav
      rcases hd : derefA v a with ⟨w, a2⟩
      rw [hd] at hnav
      simp only at hnav
      have hwinv : w.isInvalid = false := by
        cases w <;> first
          | rfl
          | (exfalso; simp only at hnav; exact absurd hnav (by simp))
      cases w with
      | vStruct fs =>
        simp only at hnav
        cases hfi : fieldIndexByName fs (String.mk s₀) with
        | none => rw [hfi] at hnav; simp at hnav
        | some it =>
          obtain ⟨i, tf⟩ := it
          rw [hfi] at hnav
          simp only at hnav
          cases hge : fs[i]? with
          | none => rw [hge] at hnav; simp at hnav
          | some f =>
            obtain ⟨nf, tf2, c⟩ := f
            rw [hge] at hnav
            simp only at hnav
            obtain ⟨c', hpost, hnav'⟩ :=
              ih c a2 tf s s' t' fuel path body hnav hcl' hscal hum hfuel'
            refine ⟨setPointee v (.vStruct (fs.set i (nf, tf2, c'))), ?_, ?_⟩
            · simp only [postGoF,
                (by simpa [List.isEmpty_iff] using hjoinne : (joinSegs (s₀ :: ss)).isEmpty = false),
                Bool.false_eq_true, if_false, hv, hd, chompPathL_joinSegs hs₀,
                (by simpa [List.isEmpty_iff] using hs₀ne : s₀.isEmpty = false)]
              simp only [hfi, hge, hpost]
            · have htf : tf = tf2 := by
                obtain ⟨n2, y2, hg2⟩ := fieldIndexByName_get hfi
                rw [hge] at hg2
                injection hg2 with hg2
                injection hg2 with _ hg2
                injection hg2 with hg2 _
                exact hg2.symm
              subst htf
              have hilen : i < fs.length := by
                by_cases hlt : i < fs.length
                · exact hlt
                · rw [List.getElem?_eq_none (Nat.le_of_not_lt hlt)] at hge
                  exact absurd hge (by simp)
              rw [navClean,
                if_neg (by simp [setPointee_not_invalid (v := v)
                  (x := Val.vStruct (fs.set i (nf, tf, c'))) rfl])]
              rw [derefA_setPointee v (Val.vStruct (fs.set i (nf, tf, c'))) a
                (by rfl) (by rw [hd]; simpa using hwinv)]
              rw [hd]
              simp only
              rw [fieldIndexByName_set_same hge, hfi]
              simp only
              rw [List.getElem?_set_self hilen]
              simp only
              exact hnav'
      | vSlice ty es =>
        simp only at hnav
        cases hfi : parseGoIdx s₀ es.length with
        | none => rw [hfi] at hnav; simp at hnav
        | some d =>
          rw [hfi] at hnav
          simp only at hnav
          cases hge : es[d]? with
          | none => rw [hge] at hnav; simp at hnav
          | some c =>
            rw [hge] at hnav
            simp only at hnav
            obtain ⟨c', hpost, hnav'⟩ :=
              ih c true emptyTag s s' t' fuel path body hnav hcl' hscal hum hfuel'
            refine ⟨setPointee v (.vSlice ty (es.set d c')), ?_, ?_⟩
            · simp only [postGoF,
                (by simpa [List.isEmpty_iff] using hjoinne : (joinSegs (s₀ :: ss)).isEmpty = false),
                Bool.false_eq_true, if_false, hv, hd, chompPathL_joinSegs hs₀,
                (by simpa [List.isEmpty_iff] using hs₀ne : s₀.isEmpty = false)]
              simp only [hfi, hge, hpost]
            · have hdlen : d < es.length := by
                by_cases hlt : d < es.length
                · exact hlt
                · rw [List.getElem?_eq_none (Nat.le_of_not_lt hlt)] at hge
                  exact absurd hge (by simp)
              rw [navClean,
                if_neg (by simp [setPointee_not_invalid (v := v)
                  (x := Val.vSlice ty (es.set d c')) rfl])]
              rw [derefA_setPointee v (Val.vSlice ty (es.set d c')) a
                (by rfl) (by rw [hd]; simpa using hwinv)]
              rw [hd]
              simp only [List.length_set]
              rw [hfi]
              simp only
              rw [List.getElem?_set_self hdlen]
              simp only
              exact hnav'
      | vMap ty es =>
        simp only at hnav
        cases hfi : lookupA es (String.mk s₀) with
        | none => rw [hfi] at hnav; simp at hnav
        | some c =>
          rw [hfi] at hnav
          simp only at hnav
          obtain ⟨c', hpost, hnav'⟩ :=
            ih c false emptyTag s s' t' fuel path body hnav hcl' hscal hum hfuel'
          refine ⟨setPointee v (.vMap ty (setA es (String.mk s₀) c')), ?_, ?_⟩
          · simp only [postGoF,
              (by simpa [List.isEmpty_iff] using hjoinne : (joinSegs (s₀ :: ss)).isEmpty = false),
              Bool.false_eq_true, if_false, hv, hd, chompPathL_joinSegs hs₀,
              (by simpa [List.isEmpty_iff] using hs₀ne : s₀.isEmpty = false)]
            simp only [hfi, hpost]
          · rw [navClean,
              if_neg (by simp [setPointee_not_invalid (v := v)
                (x := Val.vMap ty (setA es (String.mk s₀) c')) rfl])]
            rw [derefA_setPointee v (Val.vMap ty (setA es (String.mk s₀) c')) a
              (by rfl) (by rw [hd]; simpa using hwinv)]
            rw [hd]
            simp only
            rw [lookupA_setA_self]
            simp only
            exact hnav'
      | vInvalid => simp only at hnav; exact absurd hnav (by simp)
      | vInt n => simp only at hnav; exact absurd hnav (by simp)
      | vStr str => simp only at hnav; exact absurd hnav (by simp)
      | vBool bb => simp only at hnav; exact absurd hnav (by simp)
      | vPtr ty p => simp only at hnav; exact absurd hnav (by simp)

theorem string_mk_toList (l : List Char) : (String.mk l).toList = l := rfl

/-- C2 (amended): for every writable normalized path addressing a scalar
slot (number, string, boolean) and every scalar value of the slot's kind,
`Replace` (`Post`) of the encoded value succeeds returning the path, and a
subsequent `Fetch` (`Get`) of the same path succeeds and returns exactly
the encoded value.  (As originally stated — for *every* supported kind —
the claim fails: decoding merges into record and map slots, see the
counterexample.) -/
theorem c2_scalar_replace_fetch (root : Val) (ss : List (List Char)) (s : Val)
    (t' : Tag) (body : Json)
    (hclean : segsClean ss = true)
    (hnav : navClean root false emptyTag ss = some (s, true, t'))
    (hscal : isScalarVal s = true)
    (hfit : scalarFits s body = true) :
    ∃ v', Server.Post root (String.mk (joinSegs ss)) body
        = .ok (String.mk (joinSegs ss), v')
      ∧ Server.Get v' (String.mk (joinSegs ss)) = .ok body := by
  obtain ⟨s', hum, hmar, hscal'⟩ := scalar_roundtrip hfit
  have hroot : root.isInvalid = false := by
    cases ss with
    | nil =>
      simp only [navClean, Option.some_inj] at hnav
      injection hnav with h1 h23
      injection h23 with h2 h3
      exact absurd h2 (by simp)
    | cons s₀ ss' => exact navClean_not_invalid hnav
  obtain ⟨v', hpost, hnav'⟩ := postGoF_navClean ss root false emptyTag s s' t'
    ((joinSegs ss).length + 1) (String.mk (joinSegs ss)) body
    hnav hclean hscal hum (by omega)
  have hv' : v'.isInvalid = false := by
    cases ss with
    | nil =>
      simp only [navClean, Option.some_inj] at hnav'
      injection hnav' with h1 h23
      have : v' = s' := h1
      rw [this]
      exact isScalar_not_invalid hscal'
    | cons s₀ ss' => exact navClean_not_invalid hnav'
  have hder : ((derefA s' true).1).isInvalid = false := by
    rw [isScalar_deref hscal']
    exact isScalar_not_invalid hscal'
  refine ⟨v', ?_, ?_⟩
  · simp only [Server.Post, hroot, Bool.false_eq_true, if_false, string_mk_toList]
    rw [hpost]
  · simp only [Server.Get, hv', Bool.false_eq_true, if_false, string_mk_toList]
    rw [getGoF_navClean ss v' false emptyTag s' true t' ((joinSegs ss).length + 1)
      hnav' hclean hder (by omega), hmar]

/-- Witness for C2 (amended): replacing the string field `Modify` with
`"test"` and fetching it back. -/
theorem c2_scalar_replace_fetch_witness :
    ∃ v', Server.Post testerGet "Modify" (.jStr "test") = .ok ("Modify", v')
      ∧ Server.Get v' "Modify" = .ok (.jStr "test") :=
  c2_scalar_replace_fetch testerGet ["Modify".toList] (.vStr "empty") emptyTag
    (.jStr "test") rfl rfl rfl rfl

/-- Counterexample to C2 as stated: maps are a supported kind and `Map` is
a writable path of the test fixture, but `Replace("Map", {"two":2})` on a
tree where `Map` currently holds `{"one":1}` *merges*: the subsequent
`Fetch("Map")` returns `{"one":1,"two":2}`, not the encoded value
`{"two":2}`. -/
theorem c2_counterexample :
    (Server.Post testerPut "Map" (.jObj [("two", .jNum 2)])).toOption.map
        (fun p => Server.Get p.2 "Map")
      = some (.ok (.jObj [("one", .jNum 1), ("two", .jNum 2)]))
    ∧ (Json.jObj [("one", .jNum 1), ("two", .jNum 2)] ≠ .jObj [("two", .jNum 2)]) := by
  refine ⟨rfl, ?_⟩
  intro h
  injection h with h
  simp at h

/-! ### Slash normalization (C4) -/

/-- A path beginning with a single slash and ending with a single slash
around one clean segment resolves like the bare segment: both chomp to the
segment with nothing left. -/
theorem getGo_extra_slash {b : List Char} (hb : cleanSeg b = true) (c : Val)
    (f f' : Nat) :
    getGoF (f + 1) c ('/' :: b ++ ['/']) = getGoF (f' + 1) c b := by
  have h1 : chompPathL ('/' :: b ++ ['/']) = (b, []) := by
    have he : '/' :: b ++ ['/'] = '/' :: (b ++ '/' :: ([] : List Char)) := by simp
    rw [he]
    show (if ('/' : Char) = '/' then splitSlash (b ++ '/' :: []) else
      splitSlash ('/' :: (b ++ '/' :: []))) = (b, [])
    rw [if_pos rfl]
    exact splitSlash_append (cleanSeg_iff.mp hb).2
  have h2 : chompPathL b = (b, []) := chompPathL_clean hb
  simp only [getGoF, h1, h2, List.isEmpty_nil, if_true]

/-- Both sides of the normalization equality, over arbitrary sufficient
fuel: two unfoldings reduce each side to the same expression. -/
theorem c4_core (root : Val) (a b : List Char)
    (ha : cleanSeg a = true) (hb : cleanSeg b = true) (f f' : Nat) :
    getGoF (f + 1 + 1) root ('/' :: a ++ '/' :: '/' :: b ++ ['/'])
      = getGoF (f' + 1 + 1) root (a ++ '/' :: b) := by
  have hane : a ≠ [] := (cleanSeg_iff.mp ha).1
  have hbne : b ≠ [] := (cleanSeg_iff.mp hb).1
  have haE : a.isEmpty = false := by simpa [List.isEmpty_iff] using hane
  have hbE : b.isEmpty = false := by simpa [List.isEmpty_iff] using hbne
  have hc1 : chompPathL ('/' :: a ++ '/' :: '/' :: b ++ ['/'])
      = (a, '/' :: b ++ ['/']) := by
    have he : '/' :: a ++ '/' :: '/' :: b ++ ['/']
        = '/' :: (a ++ '/' :: ('/' :: b ++ ['/'])) := by simp
    rw [he]
    show (if ('/' : Char) = '/' then splitSlash (a ++ '/' :: ('/' :: b ++ ['/'])) else
      splitSlash ('/' :: (a ++ '/' :: ('/' :: b ++ ['/'])))) = (a, '/' :: b ++ ['/'])
    rw [if_pos rfl]
    exact splitSlash_append (cleanSeg_iff.mp ha).2
  have hc2 : chompPathL (a ++ '/' :: b) = (a, b) := chompPathL_clean_sep ha
  have hin1 : chompPathL ('/' :: b ++ ['/']) = (b, []) := by
    have he : '/' :: b ++ ['/'] = '/' :: (b ++ '/' :: ([] : List Char)) := by simp
    rw [he]
    show (if ('/' : Char) = '/' then splitSlash (b ++ '/' :: []) else
      splitSlash ('/' :: (b ++ '/' :: []))) = (b, [])
    rw [if_pos rfl]
    exact splitSlash_append (cleanSeg_iff.mp hb).2
  have hin2 : chompPathL b = (b, []) := chompPathL_clean hb
  have hrestE : ('/' :: b ++ ['/']).isEmpty = false := rfl
  simp only [getGoF, hc1, hc2, hin1, hin2, haE, hbE, hrestE, List.isEmpty_nil,
    if_true, Bool.false_eq_true, if_false]

/-- C4 (amended): for `Fetch`, a single leading slash, a doubled slash
between two segments, and a single trailing slash are all ignored:
`Fetch("/a//b/")` equals `Fetch("a/b")` for clean segment names and a
non-nil root.  (As originally stated — *every* path with leading, trailing
or doubled slashes, for every operation — the claim fails: an empty
segment arising from a leading `"//"` or an interior `"///"` silently ends
resolution at the node reached so far; see the counterexample.) -/
theorem c4_slash_normalization (root : Val) (a b : List Char)
    (ha : cleanSeg a = true) (hb : cleanSeg b = true)
    (hroot : root.isInvalid = false) :
    Server.Get root (String.mk ('/' :: a ++ '/' :: '/' :: b ++ ['/']))
      = Server.Get root (String.mk (a ++ '/' :: b)) := by
  simp only [Server.Get, hroot, Bool.false_eq_true, if_false, string_mk_toList]
  have e1 : ('/' :: a ++ '/' :: '/' :: b ++ ['/']).length + 1
      = (a.length + b.length + 3) + 1 + 1 := by simp; omega
  have e2 : (a ++ '/' :: b).length + 1 = (a.length + b.length) + 1 + 1 := by
    simp; omega
  rw [e1, e2]
  exact c4_core root a b ha hb _ _

/-- Counterexample to C4 as stated: `"//integer"` has a leading (doubled)
slash, so by the claim it should resolve like `"integer"`; instead the
empty first segment ends resolution at the root, and `Fetch("//integer")`
returns the whole tree (the same as `Fetch("")`), while
`Fetch("integer")` returns the field. -/
theorem c4_counterexample :
    Server.Get testerGet "integer" = .ok (.jNum (-6))
    ∧ Server.Get testerGet "//integer" = Server.Get testerGet ""
    ∧ Server.Get testerGet "//integer" ≠ Server.Get testerGet "integer" := by
  refine ⟨rfl, rfl, ?_⟩
  intro h
  rw [(rfl : Server.Get testerGet "integer" = .ok (.jNum (-6)))] at h
  have h2 : Server.Get testerGet "//integer"
      = .ok (marshal ((derefA testerGet true).1)) := rfl
  rw [h2] at h
  injection h with h
  exact absurd h (by simp [testerGet, mkTester, derefA, marshal, marshalFields])

/-- Witness for C4 (amended): `/Struct//Bool/` and `Struct/Bool` coincide
on the test fixture. -/
theorem c4_slash_normalization_witness :
    Server.Get testerGet "/Struct//Bool/" = Server.Get testerGet "Struct/Bool" :=
  c4_slash_normalization testerGet "Struct".toList "Bool".toList rfl rfl rfl

/-! ### Removal from a sequence (C3) -/

/-- Deleting a parsed, in-range index from a settable sequence along a
normalized path succeeds, and the locator finds the spliced sequence
(`take i ++ drop (i+1)`) at the same path of the resulting tree. -/
theorem delGoF_navClean :
    ∀ (ss : List (List Char)) (v : Val) (a : Bool) (t : Tag) (ty : Ty)
      (es : List Val) (t' : Tag) (tseg : List Char) (i : Int) (fuel : Nat)
      (path : String),
    navClean v a t ss = some (.vSlice ty es, true, t') →
    segsClean ss = true →
    cleanSeg tseg = true →
    parseGoInt tseg = some i →
    0 ≤ i → i < (es.length : Int) →
    (joinSegs (ss ++ [tseg])).length < fuel →
    ∃ v', delGoF fuel path v a (joinSegs (ss ++ [tseg])) = .ok v' ∧
      navClean v' a t ss
        = some (.vSlice ty (es.take i.toNat ++ es.drop (i.toNat + 1)), true, t') := by
  intro ss
  induction ss with
  | nil =>
    intro v a t ty es t' tseg i fuel path hnav _ htseg hparse hge hlt hfuel
    simp only [navClean, Option.some_inj] at hnav
    injection hnav with h1 h23
    injection h23 with h2 h3
    subst h1; subst h2; subst h3
    have htne : tseg ≠ [] := (cleanSeg_iff.mp htseg).1
    have htlen : 1 ≤ tseg.length := by
      cases tseg with
      | nil => exact absurd rfl htne
      | cons c cs => simp
    rw [show joinSegs ([] ++ [tseg]) = tseg from rfl] at hfuel ⊢
    match fuel, hfuel with
    | fuel + 1, _ =>
      have hcont : tseg.contains '/' = false := by
        simpa using (cleanSeg_iff.mp htseg).2
      refine ⟨_, ?_, rfl⟩
      simp only [delGoF, hcont, Bool.false_eq_true, not_false_eq_true, if_true,
        terminalDel, hparse]
      rw [if_neg (by omega), if_neg (by simp)]
  | cons s₀ ss ih =>
    intro v a t ty es t' tseg i fuel path hnav hclean htseg hparse hge hlt hfuel
    have hs₀ : cleanSeg s₀ = true := by
      simp only [segsClean, List.all_cons, Bool.and_eq_true] at hclean
      exact hclean.1
    have hcl' : segsClean ss = true := by
      simp only [segsClean, List.all_cons, Bool.and_eq_true] at hclean
      exact hclean.2
    have hv : v.isInvalid = false := navClean_not_invalid hnav
    have hs₀ne : s₀ ≠ [] := (cleanSeg_iff.mp hs₀).1
    have hs₀len : 1 ≤ s₀.length := by
      cases s₀ with
      | nil => exact absurd rfl hs₀ne
      | cons c cs => simp
    have hjc : joinSegs ((s₀ :: ss) ++ [tseg])
        = s₀ ++ '/' :: joinSegs (ss ++ [tseg]) := by
      rw [List.cons_append, joinSegs_cons (by simp)]
    have hcont : (s₀ ++ '/' :: joinSegs (ss ++ [tseg])).contains '/' = true := by
      simp
    match fuel, hfuel with
    | fuel + 1, hfuel =>
      have hfuel' : (joinSegs (ss ++ [tseg])).length < fuel := by
        rw [hjc] at hfuel
        simp only [List.length_append, List.length_cons] at hfuel
        omega
      rw [navClean, if_neg (by simp [hv])] at hnav
      rcases hd : derefA v a with ⟨w, a2⟩
      rw [hd] at hnav
      simp only at hnav
      have hwinv : w.isInvalid = false := by
        cases w <;> first
          | rfl
          | (exfalso; simp only at hnav; exact absurd hnav (by simp))
      rw [hjc]
      cases w with
      | vStruct fs =>
        simp only at hnav
        cases hfi : fieldIndexByName fs (String.mk s₀) with
        | none => rw [hfi] at hnav; simp at hnav
        | some it =>
          obtain ⟨j, tf⟩ := it
          rw [hfi] at hnav
          simp only at hnav
          cases hge2 : fs[j]? with
          | none => rw [hge2] at hnav; simp at hnav
          | some f =>
            obtain ⟨nf, tf2, c⟩ := f
            rw [hge2] at hnav
            simp only at hnav
            obtain ⟨c', hdel, hnav'⟩ :=
              ih c a2 tf ty es t' tseg i fuel path hnav hcl' htseg hparse hge hlt hfuel'
            refine ⟨setPointee v (.vStruct (fs.set j (nf, tf2, c'))), ?_, ?_⟩
            · simp only [delGoF, hcont, Bool.not_true, Bool.false_eq_true, if_false,
                hv, hd, chompPathL_clean_sep hs₀,
                (by simpa [List.isEmpty_iff] using hs₀ne : s₀.isEmpty = false)]
              simp only [hfi, hge2, hdel]
              simp
            · have htf : tf = tf2 := by
                obtain ⟨n2, y2, hg2⟩ := fieldIndexByName_get hfi
                rw [hge2] at hg2
                injection hg2 with hg2
                injection hg2 with _ hg2
                injection hg2 with hg2 _
                exact hg2.symm
              subst htf
              have hjlen : j < fs.length := by
                by_cases hlt2 : j < fs.length
                · exact hlt2
                · rw [List.getElem?_eq_none (Nat.le_of_not_lt hlt2)] at hge2
                  exact absurd hge2 (by simp)
              rw [navClean,
                if_neg (by simp [setPointee_not_invalid (v := v)
                  (x := Val.vStruct (fs.set j (nf, tf, c'))) rfl])]
              rw [derefA_setPointee v (Val.vStruct (fs.set j (nf, tf, c'))) a
                (by rfl) (by rw [hd]; simpa using hwinv)]
              rw [hd]
              simp only
              rw [fieldIndexByName_set_same hge2, hfi]
              simp only
              rw [List.getElem?_set_self hjlen]
              simp only
              exact hnav'
      | vSlice ty2 es2 =>
        simp only at hnav
        cases hfi : parseGoIdx s₀ es2.length with
        | none => rw [hfi] at hnav; simp at hnav
        | some d =>
          rw [hfi] at hnav
          simp only at hnav
          cases hge2 : es2[d]? with
          | none => rw [hge2] at hnav; simp at hnav
          | some c =>
            rw [hge2] at hnav
            simp only at hnav
            obtain ⟨c', hdel, hnav'⟩ :=
              ih c true emptyTag ty es t' tseg i fuel path hnav hcl' htseg hparse hge hlt hfuel'
            refine ⟨setPointee v (.vSlice ty2 (es2.set d c')), ?_, ?_⟩
            · simp only [delGoF, hcont, Bool.not_true, Bool.false_eq_true, if_false,
                hv, hd, chompPathL_clean_sep hs₀,
                (by simpa [List.isEmpty_iff] using hs₀ne : s₀.isEmpty = false)]
              simp only [hfi, hge2, hdel]
              simp
            · have hdlen : d < es2.length := by
                by_cases hlt2 : d < es2.length
                · exact hlt2
                · rw [List.getElem?_eq_none (Nat.le_of_not_lt hlt2)] at hge2
                  exact absurd hge2 (by simp)
              rw [navClean,
                if_neg (by simp [setPointee_not_invalid (v := v)
                  (x := Val.vSlice ty2 (es2.set d c')) rfl])]
              rw [derefA_setPointee v (Val.vSlice ty2 (es2.set d c')) a
                (by rfl) (by rw [hd]; simpa using hwinv)]
              rw [hd]
              simp only [List.length_set]
              rw [hfi]
              simp only
              rw [List.getElem?_set_self hdlen]
              simp only
              exact hnav'
      | vMap ty2 es2 =>
        simp only at hnav
        cases hfi : lookupA es2 (String.mk s₀) with
        | none => rw [hfi] at hnav; simp at hnav
        | some c =>
          rw [hfi] at hnav
          simp only at hnav
          obtain ⟨c', hdel, hnav'⟩ :=
            ih c false emptyTag ty es t' tseg i fuel path hnav hcl' htseg hparse hge hlt hfuel'
          refine ⟨setPointee v (.vMap ty2 (setA es2 (String.mk s₀) c')), ?_, ?_⟩
          · simp only [delGoF, hcont, Bool.not_true, Bool.false_eq_true, if_false,
              hv, hd, chompPathL_clean_sep hs₀,
              (by simpa [List.isEmpty_iff] using hs₀ne : s₀.isEmpty = false)]
            simp only [hfi, hdel]
            simp
          · rw [navClean,
              if_neg (by simp [setPointee_not_invalid (v := v)
                (x := Val.vMap ty2 (setA es2 (String.mk s₀) c')) rfl])]
            rw [derefA_setPointee v (Val.vMap ty2 (setA es2 (String.mk s₀) c')) a
              (by rfl) (by rw [hd]; simpa using hwinv)]
            rw [hd]
            simp only
            rw [lookupA_setA_self]
            simp only
            exact hnav'
      | vInvalid => simp only at hnav; exact absurd hnav (by simp)
      | vInt n => simp only at hnav; exact absurd hnav (by simp)
      | vStr str => simp only at hnav; exact absurd hnav (by simp)
      | vBool bb => simp only at hnav; exact absurd hnav (by simp)
      | vPtr ty2 p => simp only at hnav; exact absurd hnav (by simp)

theorem splice_getElem_lt {α : Type} (es : List α) (n j : Nat) (h : j < n)
    (hn : n ≤ es.length) :
    (es.take n ++ es.drop (n + 1))[j]? = es[j]? := by
  rw [List.getElem?_append, if_pos (by simp [List.length_take]; omega)]
  simp [List.getElem?_take, h]

theorem splice_getElem_ge {α : Type} (es : List α) (n j : Nat) (h : n ≤ j)
    (hn : n < es.length) :
    (es.take n ++ es.drop (n + 1))[j]? = es[j + 1]? := by
  rw [List.getElem?_append, if_neg (by simp [List.length_take]; omega)]
  rw [List.getElem?_drop]
  congr 1
  simp [List.length_take]
  omega

/-- C3 (amended): removing a parsed, in-range index `i` from a *settable*
sequence of length `L` (one reached without passing through a plain map
value, so that `reflect.Value.Set` is legal — the original claim's "every
sequence" fails for map-embedded sequences, see the counterexample)
succeeds and yields the sequence of length `L-1` in which the former
element at `i+1` is now at `i` (every later element shifts down by one)
and all elements before `i` are unchanged. -/
theorem c3_remove_splices (root : Val) (ss : List (List Char)) (ty : Ty)
    (es : List Val) (t' : Tag) (tseg : List Char) (i : Int)
    (hnav : navClean root false emptyTag ss = some (.vSlice ty es, true, t'))
    (hclean : segsClean ss = true) (htseg : cleanSeg tseg = true)
    (hparse : parseGoInt tseg = some i) (hge : 0 ≤ i)
    (hlt : i < (es.length : Int)) :
    ∃ v', Server.Delete root (String.mk (joinSegs (ss ++ [tseg]))) = .ok v'
      ∧ navClean v' false emptyTag ss
          = some (.vSlice ty (es.take i.toNat ++ es.drop (i.toNat + 1)), true, t')
      ∧ (es.take i.toNat ++ es.drop (i.toNat + 1)).length = es.length - 1
      ∧ (∀ j : Nat, j < i.toNat →
          (es.take i.toNat ++ es.drop (i.toNat + 1))[j]? = es[j]?)
      ∧ (∀ j : Nat, i.toNat ≤ j →
          (es.take i.toNat ++ es.drop (i.toNat + 1))[j]? = es[j + 1]?) := by
  have hroot : root.isInvalid = false := by
    cases ss with
    | nil =>
      simp only [navClean, Option.some_inj] at hnav
      injection hnav with h1 h23
      subst h1
      rfl
    | cons s₀ ss' => exact navClean_not_invalid hnav
  have hiLt : i.toNat < es.length := by omega
  obtain ⟨v', hdel, hnav'⟩ := delGoF_navClean ss root false emptyTag ty es t'
    tseg i ((joinSegs (ss ++ [tseg])).length + 1) (String.mk (joinSegs (ss ++ [tseg])))
    hnav hclean htseg hparse hge hlt (by omega)
  refine ⟨v', ?_, hnav', ?_, ?_, ?_⟩
  · simp only [Server.Delete, hroot, Bool.false_eq_true, if_false, string_mk_toList]
    exact hdel
  · simp [List.length_take, List.length_drop]
    omega
  · intro j hj
    exact splice_getElem_lt es i.toNat j hj (by omega)
  · intro j hj
    exact splice_getElem_ge es i.toNat j hj hiLt

/-- Witness for C3 (amended): deleting index 1 of `Slice = [1,2,3]` in the
test fixture. -/
theorem c3_remove_splices_witness :
    ∃ v', Server.Delete testerDel "Slice/1" = .ok v'
      ∧ navClean v' false emptyTag ["Slice".toList]
          = some (.vSlice .tInt (([.vInt 1, .vInt 2, .vInt 3] : List Val).take 1
              ++ ([.vInt 1, .vInt 2, .vInt 3] : List Val).drop 2), true, emptyTag)
      ∧ (([.vInt 1, .vInt 2, .vInt 3] : List Val).take 1
          ++ ([.vInt 1, .vInt 2, .vInt 3] : List Val).drop 2).length = 3 - 1
      ∧ (∀ j : Nat, j < 1 →
          (([.vInt 1, .vInt 2, .vInt 3] : List Val).take 1
            ++ ([.vInt 1, .vInt 2, .vInt 3] : List Val).drop 2)[j]?
            = ([.vInt 1, .vInt 2, .vInt 3] : List Val)[j]?)
      ∧ (∀ j : Nat, 1 ≤ j →
          (([.vInt 1, .vInt 2, .vInt 3] : List Val).take 1
            ++ ([.vInt 1, .vInt 2, .vInt 3] : List Val).drop 2)[j]?
            = ([.vInt 1, .vInt 2, .vInt 3] : List Val)[j + 1]?) :=
  c3_remove_splices testerDel ["Slice".toList] .tInt
    [.vInt 1, .vInt 2, .vInt 3] emptyTag "1".toList 1 rfl rfl rfl rfl
    (by omega) (by simp)

/-- Counterexample to C3 as stated: a sequence stored as a plain map value
is not settable (`reflect.Value.CanSet` is false for a value obtained from
a map index), so removing an in-range index from it fails with
`InternalServerError("cannot set slice")` instead of succeeding. -/
theorem c3_counterexample :
    Server.Delete
      (.vMap (.tSlice .tInt) [("k", .vSlice .tInt [.vInt 1, .vInt 2])]) "k/0"
      = .error (.internal "cannot set slice") := rfl

/-! ### Bounded append (C1) -/

/-- Appending to a settable sequence field of a record along a normalized
path, when the field's `api` tag yields maximum `N ≥ 1` and the sequence
already holds `L ≥ N` elements (`L + 1 > N`): the oldest `L + 1 - N`
elements are evicted, the decoded element is appended, and the returned
location is `path/<N-1>`.  (The sequence must be a *record field* — an
append addressed at a map element stops at the map instead, and tags exist
only on record fields.) -/
theorem putGoF_evict :
    ∀ (ss₀ : List (List Char)) (v : Val) (a : Bool) (t : Tag) (w : Val)
      (b : Bool) (t₀ : Tag) (f : List Char) (fs : List (String × Tag × Val))
      (i : Nat) (tag : Tag) (nf : String) (tagf : Tag) (ty : Ty)
      (es : List Val) (N : Nat) (fuel : Nat) (path : String) (body : Json)
      (elem : Val),
    navClean v a t ss₀ = some (w, b, t₀) →
    segsClean ss₀ = true → cleanSeg f = true →
    derefA w b = (.vStruct fs, true) →
    fieldIndexByName fs (String.mk f) = some (i, tag) →
    fs[i]? = some (nf, tagf, .vSlice ty es) →
    decodeElem ty body = some elem →
    maxOf tag = N → 1 ≤ N → N ≤ es.length →
    (joinSegs (ss₀ ++ [f])).length < fuel →
    ∃ v', putGoF fuel path v a t (joinSegs (ss₀ ++ [f])) body
        = .ok (path ++ "/" ++ toString (N - 1), v') ∧
      navClean v' a t (ss₀ ++ [f])
        = some (.vSlice ty (es.drop (es.length + 1 - N) ++ [elem]), true, tag) := by
  intro ss₀
  induction ss₀ with
  | nil =>
    intro v a t w b t₀ f fs i tag nf tagf ty es N fuel path body elem
      hnav _ hf hw hfi hge hdec hmax hN hL hfuel
    simp only [navClean, Option.some_inj] at hnav
    injection hnav with h1 h23
    injection h23 with h2 h3
    subst h1; subst h2; subst h3
    have hfne : f ≠ [] := (cleanSeg_iff.mp hf).1
    have hfcont : f.contains '/' = false := by
      simpa using (cleanSeg_iff.mp hf).2
    rw [show joinSegs ([] ++ [f]) = f from rfl] at hfuel ⊢
    have hvm : v.isMapKind = false := by
      cases v with
      | vMap ty2 es2 =>
        simp only [derefA] at hw
        exact absurd hw (by simp)
      | vInvalid => rfl
      | vInt n => rfl
      | vStr s => rfl
      | vBool bb => rfl
      | vStruct fs2 => rfl
      | vSlice ty2 es2 => rfl
      | vPtr ty2 p => rfl
    have hv : v.isInvalid = false := by
      cases v with
      | vInvalid =>
        simp only [derefA] at hw
        exact absurd hw (by simp)
      | vInt n => rfl
      | vStr s => rfl
      | vBool bb => rfl
      | vStruct fs2 => rfl
      | vSlice ty2 es2 => rfl
      | vMap ty2 es2 => rfl
      | vPtr ty2 p => rfl
    have hilen : i < fs.length := by
      by_cases hlt2 : i < fs.length
      · exact hlt2
      · rw [List.getElem?_eq_none (Nat.le_of_not_lt hlt2)] at hge
        exact absurd hge (by simp)
    have htagf : tag = tagf := by
      obtain ⟨n2, y2, hg2⟩ := fieldIndexByName_get hfi
      rw [hge] at hg2
      injection hg2 with hg2
      injection hg2 with _ hg2
      injection hg2 with hg2 _
      exact hg2.symm
    have hflen : 1 ≤ f.length := by
      cases f with
      | nil => exact absurd rfl hfne
      | cons c cs => simp
    match fuel, hfuel with
    | fuel + 1, hfuel2 =>
      match fuel, (show 0 < fuel by omega) with
      | fuel + 1, _ =>
      have hlen' : (es.drop (es.length + 1 - N) ++ [elem]).length = N := by
        simp only [List.length_append, List.length_drop, List.length_cons,
          List.length_nil]
        omega
      refine ⟨setPointee v (.vStruct (fs.set i
        (nf, tagf, .vSlice ty (es.drop (es.length + 1 - N) ++ [elem])))), ?_, ?_⟩
      · simp only [putGoF, hvm, hfcont, Bool.false_eq_true, false_and, if_false,
          (by simpa [List.isEmpty_iff] using hfne : f.isEmpty = false),
          hv, hw, chompPathL_clean hf, hfi, hge, terminalPut,
          (rfl : (Val.vSlice ty es).isMapKind = false),
          List.isEmpty_nil, if_true, List.contains_nil, Bool.not_false, and_true,
          not_false_eq_true, hdec, hmax]
        rw [if_pos hL]
        simp only [Bool.not_true, Bool.false_eq_true, if_false]
        rw [hlen']
        rw [if_neg (show ¬(N = 0) from by omega)]
        rfl
      · rw [show ([] : List (List Char)) ++ [f] = [f] from rfl]
        rw [navClean,
          if_neg (by simp [setPointee_not_invalid (v := v)
            (x := Val.vStruct (fs.set i
              (nf, tagf, .vSlice ty (es.drop (es.length + 1 - N) ++ [elem])))) rfl])]
        rw [derefA_setPointee v _ a (by rfl)
          (by rw [hw]; rfl)]
        rw [hw]
        simp only
        subst htagf
        rw [fieldIndexByName_set_same hge, hfi]
        simp only
        rw [List.getElem?_set_self hilen]
        simp only
        rfl
  | cons s₀ ss₀ ih =>
    intro v a t w b t₀ f fs i tag nf tagf ty es N fuel path body elem
      hnav hclean hf hw hfi hge hdec hmax hN hL hfuel
    have hs₀ : cleanSeg s₀ = true := by
      simp only [segsClean, List.all_cons, Bool.and_eq_true] at hclean
      exact hclean.1
    have hcl' : segsClean ss₀ = true := by
      simp only [segsClean, List.all_cons, Bool.and_eq_true] at hclean
      exact hclean.2
    have hv : v.isInvalid = false := navClean_not_invalid hnav
    have hs₀ne : s₀ ≠ [] := (cleanSeg_iff.mp hs₀).1
    have hs₀len : 1 ≤ s₀.length := by
      cases s₀ with
      | nil => exact absurd rfl hs₀ne
      | cons c cs => simp
    have hjc : joinSegs ((s₀ :: ss₀) ++ [f])
        = s₀ ++ '/' :: joinSegs (ss₀ ++ [f]) := by
      rw [List.cons_append, joinSegs_cons (by simp)]
    have hcont : (s₀ ++ '/' :: joinSegs (ss₀ ++ [f])).contains '/' = true := by
      simp
    match fuel, hfuel with
    | fuel + 1, hfuel =>
      have hfuel' : (joinSegs (ss₀ ++ [f])).length < fuel := by
        rw [hjc] at hfuel
        simp only [List.length_append, List.length_cons] at hfuel
        omega
      rw [navClean, if_neg (by simp [hv])] at hnav
      rcases hd : derefA v a with ⟨w2, a2⟩
      rw [hd] at hnav
      simp only at hnav
      have hwinv : w2.isInvalid = false := by
        cases w2 <;> first
          | rfl
          | (exfalso; simp only at hnav; exact absurd hnav (by simp))
      rw [hjc]
      cases w2 with
      | vStruct fs2 =>
        simp only at hnav
        cases hfi2 : fieldIndexByName fs2 (String.mk s₀) with
        | none => rw [hfi2] at hnav; simp at hnav
        | some it =>
          obtain ⟨j, tf⟩ := it
          rw [hfi2] at hnav
          simp only at hnav
          cases hge2 : fs2[j]? with
          | none => rw [hge2] at hnav; simp at hnav
          | some ff =>
            obtain ⟨nf2, tf2, c⟩ := ff
            rw [hge2] at hnav
            simp only at hnav
            obtain ⟨c', hput, hnav'⟩ :=
              ih c a2 tf w b t₀ f fs i tag nf tagf ty es N fuel path body elem
                hnav hcl' hf hw hfi hge hdec hmax hN hL hfuel'
            refine ⟨setPointee v (.vStruct (fs2.set j (nf2, tf2, c'))), ?_, ?_⟩
            · simp only [putGoF, hcont, Bool.not_true, Bool.false_eq_true,
                and_false, if_false,
                (by simp : (s₀ ++ '/' :: joinSegs (ss₀ ++ [f])).isEmpty = false),
                hv, hd, chompPathL_clean_sep hs₀,
                (by simpa [List.isEmpty_iff] using hs₀ne : s₀.isEmpty = false)]
              simp only [hfi2, hge2, hput]
              simp
            · have htf : tf = tf2 := by
                obtain ⟨n2, y2, hg2⟩ := fieldIndexByName_get hfi2
                rw [hge2] at hg2
                injection hg2 with hg2
                injection hg2 with _ hg2
                injection hg2 with hg2 _
                exact hg2.symm
              subst htf
              have hjlen : j < fs2.length := by
                by_cases hlt2 : j < fs2.length
                · exact hlt2
                · rw [List.getElem?_eq_none (Nat.le_of_not_lt hlt2)] at hge2
                  exact absurd hge2 (by simp)
              try rw [List.cons_append]
              rw [navClean,
                if_neg (by simp [setPointee_not_invalid (v := v)
                  (x := Val.vStruct (fs2.set j (nf2, tf, c'))) rfl])]
              rw [derefA_setPointee v (Val.vStruct (fs2.set j (nf2, tf, c'))) a
                (by rfl) (by rw [hd]; simpa using hwinv)]
              rw [hd]
              simp only
              rw [fieldIndexByName_set_same hge2, hfi2]
              simp only
              rw [List.getElem?_set_self hjlen]
              simp only
              exact hnav'
      | vSlice ty2 es2 =>
        simp only at hnav
        cases hfi2 : parseGoIdx s₀ es2.length with
        | none => rw [hfi2] at hnav; simp at hnav
        | some d =>
          rw [hfi2] at hnav
          simp only at hnav
          cases hge2 : es2[d]? with
          | none => rw [hge2] at hnav; simp at hnav
          | some c =>
            rw [hge2] at hnav
            simp only at hnav
            obtain ⟨c', hput, hnav'⟩ :=
              ih c true emptyTag w b t₀ f fs i tag nf tagf ty es N fuel path body elem
                hnav hcl' hf hw hfi hge hdec hmax hN hL hfuel'
            refine ⟨setPointee v (.vSlice ty2 (es2.set d c')), ?_, ?_⟩
            · simp only [putGoF, hcont, Bool.not_true, Bool.false_eq_true,
                and_false, if_false,
                (by simp : (s₀ ++ '/' :: joinSegs (ss₀ ++ [f])).isEmpty = false),
                hv, hd, chompPathL_clean_sep hs₀,
                (by simpa [List.isEmpty_iff] using hs₀ne : s₀.isEmpty = false)]
              simp only [hfi2, hge2, hput]
              simp
            · have hdlen : d < es2.length := by
                by_cases hlt2 : d < es2.length
                · exact hlt2
                · rw [List.getElem?_eq_none (Nat.le_of_not_lt hlt2)] at hge2
                  exact absurd hge2 (by simp)
              try rw [List.cons_append]
              rw [navClean,
                if_neg (by simp [setPointee_not_invalid (v := v)
                  (x := Val.vSlice ty2 (es2.set d c')) rfl])]
              rw [derefA_setPointee v (Val.vSlice ty2 (es2.set d c')) a
                (by rfl) (by rw [hd]; simpa using hwinv)]
              rw [hd]
              simp only [List.length_set]
              rw [hfi2]
              simp only
              rw [List.getElem?_set_self hdlen]
              simp only
              exact hnav'
      | vMap ty2 es2 =>
        simp only at hnav
        cases hfi2 : lookupA es2 (String.mk s₀) with
        | none => rw [hfi2] at hnav; simp at hnav
        | some c =>
          rw [hfi2] at hnav
          simp only at hnav
          obtain ⟨c', hput, hnav'⟩ :=
            ih c false emptyTag w b t₀ f fs i tag nf tagf ty es N fuel path body elem
              hnav hcl' hf hw hfi hge hdec hmax hN hL hfuel'
          refine ⟨setPointee v (.vMap ty2 (setA es2 (String.mk s₀) c')), ?_, ?_⟩
          · simp only [putGoF, hcont, Bool.not_true, Bool.false_eq_true,
              and_false, if_false,
              (by simp : (s₀ ++ '/' :: joinSegs (ss₀ ++ [f])).isEmpty = false),
              hv, hd, chompPathL_clean_sep hs₀,
              (by simpa [List.isEmpty_iff] using hs₀ne : s₀.isEmpty = false)]
            simp only [hfi2, hput]
            simp
          · try rw [List.cons_append]
            rw [navClean,
              if_neg (by simp [setPointee_not_invalid (v := v)
                (x := Val.vMap ty2 (setA es2 (String.mk s₀) c')) rfl])]
            rw [derefA_setPointee v (Val.vMap ty2 (setA es2 (String.mk s₀) c')) a
              (by rfl) (by rw [hd]; simpa using hwinv)]
            rw [hd]
            simp only
            rw [lookupA_setA_self]
            simp only
            exact hnav'
      | vInvalid => simp only at hnav; exact absurd hnav (by simp)
      | vInt n => simp only at hnav; exact absurd hnav (by simp)
      | vStr str => simp only at hnav; exact absurd hnav (by simp)
      | vBool bb => simp only at hnav; exact absurd hnav (by simp)
      | vPtr ty2 p => simp only at hnav; exact absurd hnav (by simp)

/-- C1: an Append (`Server.Put`) to a record field holding a sequence of
length `L`, annotated with `maximum=N` where `L + 1 > N` (and `N ≥ 1`,
which the claim's arithmetic presupposes), first evicts the oldest
`L + 1 - N` elements and then appends the decoded element: afterwards the
field resolves to `es.drop (L + 1 - N) ++ [elem]` — the `N - 1` newest
previous elements followed by the new one, exactly `N` elements — and the
returned location is `path/<N-1>`.  The field must sit in a settable
struct (`derefA … = (_, true)`), since `v.Set` panics otherwise. -/
theorem c1_bounded_append (v : Val) (ss₀ : List (List Char)) (f : List Char)
    (w : Val) (b : Bool) (t₀ : Tag) (fs : List (String × Tag × Val))
    (i : Nat) (tag : Tag) (nf : String) (tagf : Tag) (ty : Ty)
    (es : List Val) (N : Nat) (body : Json) (elem : Val)
    (hnav : navClean v false emptyTag ss₀ = some (w, b, t₀))
    (hss : segsClean ss₀ = true) (hf : cleanSeg f = true)
    (hw : derefA w b = (.vStruct fs, true))
    (hfi : fieldIndexByName fs (String.mk f) = some (i, tag))
    (hge : fs[i]? = some (nf, tagf, .vSlice ty es))
    (hdec : decodeElem ty body = some elem)
    (hmax : maxOf tag = N) (hN : 1 ≤ N) (hL : N ≤ es.length) :
    ∃ v',
      Server.Put v (String.mk (joinSegs (ss₀ ++ [f]))) body
        = (.ok (String.mk (joinSegs (ss₀ ++ [f])) ++ "/" ++ toString (N - 1)), v')
      ∧ navClean v' false emptyTag (ss₀ ++ [f])
          = some (.vSlice ty (es.drop (es.length + 1 - N) ++ [elem]), true, tag)
      ∧ (es.drop (es.length + 1 - N) ++ [elem]).length = N := by
  have hroot : v.isInvalid = false := by
    cases ss₀ with
    | nil =>
      simp only [navClean, Option.some_inj] at hnav
      injection hnav with h1 h23
      injection h23 with h2 h3
      subst h1; subst h2
      cases v with
      | vPtr ty2 ov => rfl
      | vInvalid => simp only [derefA] at hw; exact absurd hw (by simp)
      | vInt n => rfl
      | vStr s => rfl
      | vBool bb => rfl
      | vStruct fs2 => rfl
      | vSlice ty2 es2 => rfl
      | vMap ty2 es2 => rfl
    | cons s₀ ss' => exact navClean_not_invalid hnav
  obtain ⟨v', hput, hnav'⟩ := putGoF_evict ss₀ v false emptyTag w b t₀ f fs i
    tag nf tagf ty es N ((joinSegs (ss₀ ++ [f])).length + 1)
    (String.mk (joinSegs (ss₀ ++ [f]))) body elem
    hnav hss hf hw hfi hge hdec hmax hN hL (by omega)
  refine ⟨v', ?_, hnav', ?_⟩
  · simp only [Server.Put, hroot, Bool.false_eq_true, if_false, string_mk_toList]
    rw [hput]
  · simp only [List.length_append, List.length_drop, List.length_cons,
      List.length_nil]
    omega

/-- Witness for C1: the walkthrough scenario — with `maximum=1` and one
stream already stored, a second `Put("streams", {"url":"http://b",
"name":"b"})` evicts index 0, stores only the new stream, and returns
`"streams/0"` again. -/
theorem c1_bounded_append_witness :
    ∃ v',
      Server.Put streamsRoot "streams" streamBodyB = (.ok "streams/0", v')
      ∧ navClean v' false emptyTag ["streams".toList]
          = some (.vSlice streamTy [streamB], true, streamsTag)
      ∧ ([streamB] : List Val).length = 1 :=
  c1_bounded_append streamsRoot [] "streams".toList streamsRoot false emptyTag
    streamsFields 0 streamsTag "Streams" streamsTag streamTy [streamA] 1
    streamBodyB streamB rfl rfl rfl rfl rfl rfl rfl rfl (by decide) (by decide)

/-- Errors produced at the end of a resolved prefix propagate unchanged
through `Server.Put`'s loop: the per-step error cases of the loop body
return the inner error as-is. -/
theorem putGoF_err :
    ∀ (ss₀ : List (List Char)) (v : Val) (a : Bool) (t : Tag) (w : Val)
      (b : Bool) (t₀ : Tag) (f : List Char) (fuel : Nat) (path : String)
      (body : Json) (e : Fail),
    navClean v a t ss₀ = some (w, b, t₀) →
    segsClean ss₀ = true → cleanSeg f = true →
    (∀ fuel', f.length < fuel' → putGoF fuel' path w b t₀ f body = .error e) →
    (joinSegs (ss₀ ++ [f])).length < fuel →
    putGoF fuel path v a t (joinSegs (ss₀ ++ [f])) body = .error e := by
  intro ss₀
  induction ss₀ with
  | nil =>
    intro v a t w b t₀ f fuel path body e hnav _ hf hterm hfuel
    simp only [navClean, Option.some_inj] at hnav
    injection hnav with h1 h23
    injection h23 with h2 h3
    subst h1; subst h2; subst h3
    rw [show joinSegs ([] ++ [f]) = f from rfl] at hfuel ⊢
    exact hterm fuel hfuel
  | cons s₀ ss₀ ih =>
    intro v a t w b t₀ f fuel path body e hnav hclean hf hterm hfuel
    have hs₀ : cleanSeg s₀ = true := by
      simp only [segsClean, List.all_cons, Bool.and_eq_true] at hclean
      exact hclean.1
    have hcl' : segsClean ss₀ = true := by
      simp only [segsClean, List.all_cons, Bool.and_eq_true] at hclean
      exact hclean.2
    have hv : v.isInvalid = false := navClean_not_invalid hnav
    have hs₀ne : s₀ ≠ [] := (cleanSeg_iff.mp hs₀).1
    have hjc : joinSegs ((s₀ :: ss₀) ++ [f])
        = s₀ ++ '/' :: joinSegs (ss₀ ++ [f]) := by
      rw [List.cons_append, joinSegs_cons (by simp)]
    have hcont : (s₀ ++ '/' :: joinSegs (ss₀ ++ [f])).contains '/' = true := by
      simp
    match fuel, hfuel with
    | fuel + 1, hfuel =>
      have hfuel' : (joinSegs (ss₀ ++ [f])).length < fuel := by
        rw [hjc] at hfuel
        simp only [List.length_append, List.length_cons] at hfuel
        omega
      rw [navClean, if_neg (by simp [hv])] at hnav
      rcases hd : derefA v a with ⟨w2, a2⟩
      rw [hd] at hnav
      simp only at hnav
      rw [hjc]
      cases w2 with
      | vStruct fs2 =>
        simp only at hnav
        cases hfi2 : fieldIndexByName fs2 (String.mk s₀) with
        | none => rw [hfi2] at hnav; simp at hnav
        | some it =>
          obtain ⟨j, tf⟩ := it
          rw [hfi2] at hnav
          simp only at hnav
          cases hge2 : fs2[j]? with
          | none => rw [hge2] at hnav; simp at hnav
          | some ff =>
            obtain ⟨nf2, tf2, c⟩ := ff
            rw [hge2] at hnav
            simp only at hnav
            have hput := ih c a2 tf w b t₀ f fuel path body e
              hnav hcl' hf hterm hfuel'
            simp only [putGoF, hcont, Bool.not_true, Bool.false_eq_true,
              and_false, if_false,
              (by simp : (s₀ ++ '/' :: joinSegs (ss₀ ++ [f])).isEmpty = false),
              hv, hd, chompPathL_clean_sep hs₀,
              (by simpa [List.isEmpty_iff] using hs₀ne : s₀.isEmpty = false)]
            simp only [hfi2, hge2, hput]
            simp
      | vSlice ty2 es2 =>
        simp only at hnav
        cases hfi2 : parseGoIdx s₀ es2.length with
        | none => rw [hfi2] at hnav; simp at hnav
        | some d =>
          rw [hfi2] at hnav
          simp only at hnav
          cases hge2 : es2[d]? with
          | none => rw [hge2] at hnav; simp at hnav
          | some c =>
            rw [hge2] at hnav
            simp only at hnav
            have hput := ih c true emptyTag w b t₀ f fuel path body e
              hnav hcl' hf hterm hfuel'
            simp only [putGoF, hcont, Bool.not_true, Bool.false_eq_true,
              and_false, if_false,
              (by simp : (s₀ ++ '/' :: joinSegs (ss₀ ++ [f])).isEmpty = false),
              hv, hd, chompPathL_clean_sep hs₀,
              (by simpa [List.isEmpty_iff] using hs₀ne : s₀.isEmpty = false)]
            simp only [hfi2, hge2, hput]
            simp
      | vMap ty2 es2 =>
        simp only at hnav
        cases hfi2 : lookupA es2 (String.mk s₀) with
        | none => rw [hfi2] at hnav; simp at hnav
        | some c =>
          rw [hfi2] at hnav
          simp only at hnav
          have hput := ih c false emptyTag w b t₀ f fuel path body e
            hnav hcl' hf hterm hfuel'
          simp only [putGoF, hcont, Bool.not_true, Bool.false_eq_true,
            and_false, if_false,
            (by simp : (s₀ ++ '/' :: joinSegs (ss₀ ++ [f])).isEmpty = false),
            hv, hd, chompPathL_clean_sep hs₀,
            (by simpa [List.isEmpty_iff] using hs₀ne : s₀.isEmpty = false)]
          simp only [hfi2, hput]
          simp
      | vInvalid => simp only at hnav; exact absurd hnav (by simp)
      | vInt n => simp only at hnav; exact absurd hnav (by simp)
      | vStr str => simp only at hnav; exact absurd hnav (by simp)
      | vBool bb => simp only at hnav; exact absurd hnav (by simp)
      | vPtr ty2 p => simp only at hnav; exact absurd hnav (by simp)

/-- Terminal map step of `Server.Put` on a body that does not decode as
the map's element type: the fresh element is decoded before the map is
touched, and the failure is a `BadRequestError`. -/
theorem putGoF_map_decodeFail {ty : Ty} {f : List Char} {body : Json}
    (es : List (String × Val)) (b : Bool) (t₀ : Tag) (path : String)
    (hf : cleanSeg f = true) (hdec : decodeElem ty body = none) :
    ∀ fuel', f.length < fuel' →
      putGoF fuel' path (.vMap ty es) b t₀ f body
        = .error (.badRequest jsonErrMsg) := by
  intro fuel' hlt
  have hfcont : f.contains '/' = false := by
    simpa using (cleanSeg_iff.mp hf).2
  match fuel', hlt with
  | m + 1, _ =>
    rw [putGoF, if_pos ⟨rfl, by simpa using (cleanSeg_iff.mp hf).2⟩]
    simp only [terminalPut, hdec]

/-- Terminal slice-field step of `Server.Put` on a body that does not
decode as the slice's element type: the value one step before the end is
a record whose field `f` holds a slice; the fresh element is decoded
before any eviction or append, and the failure is a `BadRequestError`. -/
theorem putGoF_field_decodeFail {f : List Char} {fs : List (String × Tag × Val)}
    {i : Nat} {tag : Tag} {nf : String} {tagf : Tag} {ty : Ty}
    {es : List Val} {body : Json} (w : Val) (b ad : Bool) (t₀ : Tag)
    (path : String)
    (hf : cleanSeg f = true)
    (hw : derefA w b = (.vStruct fs, ad))
    (hfi : fieldIndexByName fs (String.mk f) = some (i, tag))
    (hge : fs[i]? = some (nf, tagf, .vSlice ty es))
    (hdec : decodeElem ty body = none) :
    ∀ fuel', f.length < fuel' →
      putGoF fuel' path w b t₀ f body = .error (.badRequest jsonErrMsg) := by
  intro fuel' hlt
  have hfne : f ≠ [] := (cleanSeg_iff.mp hf).1
  have hfcont : f.contains '/' = false := by
    simpa using (cleanSeg_iff.mp hf).2
  have hflen : 1 ≤ f.length := by
    cases f with
    | nil => exact absurd rfl hfne
    | cons c cs => simp
  have hvm : w.isMapKind = false := by
    cases w with
    | vMap ty2 es2 =>
      simp only [derefA] at hw
      exact absurd hw (by simp)
    | vInvalid => rfl
    | vInt n => rfl
    | vStr s => rfl
    | vBool bb => rfl
    | vStruct fs2 => rfl
    | vSlice ty2 es2 => rfl
    | vPtr ty2 p => rfl
  have hv : w.isInvalid = false := by
    cases w with
    | vInvalid =>
      simp only [derefA] at hw
      exact absurd hw (by simp)
    | vInt n => rfl
    | vStr s => rfl
    | vBool bb => rfl
    | vStruct fs2 => rfl
    | vSlice ty2 es2 => rfl
    | vMap ty2 es2 => rfl
    | vPtr ty2 p => rfl
  match fuel', hlt with
  | m + 1, hlt2 =>
    match m, (show 0 < m by omega) with
    | m + 1, _ =>
      simp only [putGoF, hvm, hfcont, Bool.false_eq_true, false_and, if_false,
        (by simpa [List.isEmpty_iff] using hfne : f.isEmpty = false),
        hv, hw, chompPathL_clean hf, hfi, hge, terminalPut,
        (rfl : (Val.vSlice ty es).isMapKind = false),
        List.isEmpty_nil, if_true, List.contains_nil, Bool.not_false, and_true,
        not_false_eq_true, hdec]
      rfl

/-- C10: Append (`Server.Put`) is atomic on decode failure.  (i) Whenever
`Server.Put` reports any error, the returned tree is the unchanged input
(every error return of the Go code, including the panicking ones, happens
before the collection is mutated).  (ii) When the path addresses a map and
the terminal body does not decode as the map's element type, the result is
a `BadRequestError` with the tree unchanged.  (iii) Likewise when the path
addresses a record field holding a sequence: the fresh element is decoded
into a newly allocated value before any eviction or append. -/
theorem c10_put_atomic_decode_failure :
    (∀ (root : Val) (path : String) (body : Json) (e : Fail),
      (Server.Put root path body).1 = .error e →
      (Server.Put root path body).2 = root)
    ∧ (∀ (root : Val) (ss₀ : List (List Char)) (f : List Char) (b : Bool)
        (t₀ : Tag) (ty : Ty) (es : List (String × Val)) (body : Json),
      navClean root false emptyTag ss₀ = some (.vMap ty es, b, t₀) →
      segsClean ss₀ = true → cleanSeg f = true →
      decodeElem ty body = none →
      Server.Put root (String.mk (joinSegs (ss₀ ++ [f]))) body
        = (.error (.badRequest jsonErrMsg), root))
    ∧ (∀ (root : Val) (ss₀ : List (List Char)) (f : List Char) (w : Val)
        (b ad : Bool) (t₀ : Tag) (fs : List (String × Tag × Val)) (i : Nat)
        (tag : Tag) (nf : String) (tagf : Tag) (ty : Ty) (es : List Val)
        (body : Json),
      navClean root false emptyTag ss₀ = some (w, b, t₀) →
      segsClean ss₀ = true → cleanSeg f = true →
      derefA w b = (.vStruct fs, ad) →
      fieldIndexByName fs (String.mk f) = some (i, tag) →
      fs[i]? = some (nf, tagf, .vSlice ty es) →
      decodeElem ty body = none →
      Server.Put root (String.mk (joinSegs (ss₀ ++ [f]))) body
        = (.error (.badRequest jsonErrMsg), root)) := by
  refine ⟨?_, ?_, ?_⟩
  · intro root path body e h
    cases hr : root.isInvalid with
    | true => simp [Server.Put, hr]
    | false =>
      simp only [Server.Put, hr, Bool.false_eq_true, if_false] at h ⊢
      cases hm : putGoF (path.toList.length + 1) path root false emptyTag
          path.toList body with
      | error e' => rfl
      | ok p =>
        obtain ⟨loc, v'⟩ := p
        rw [hm] at h
        exact absurd h (by simp)
  · intro root ss₀ f b t₀ ty es body hnav hss hf hdec
    have hroot : root.isInvalid = false := by
      cases ss₀ with
      | nil =>
        simp only [navClean, Option.some_inj] at hnav
        injection hnav with h1 h23
        rw [h1]; rfl
      | cons s₀ ss' => exact navClean_not_invalid hnav
    simp only [Server.Put, hroot, Bool.false_eq_true, if_false, string_mk_toList]
    rw [putGoF_err ss₀ root false emptyTag (.vMap ty es) b t₀ f
      ((joinSegs (ss₀ ++ [f])).length + 1) (String.mk (joinSegs (ss₀ ++ [f])))
      body (.badRequest jsonErrMsg) hnav hss hf
      (putGoF_map_decodeFail es b t₀ (String.mk (joinSegs (ss₀ ++ [f]))) hf hdec)
      (by omega)]
  · intro root ss₀ f w b ad t₀ fs i tag nf tagf ty es body
      hnav hss hf hw hfi hge hdec
    have hroot : root.isInvalid = false := by
      cases ss₀ with
      | nil =>
        simp only [navClean, Option.some_inj] at hnav
        injection hnav with h1 h23
        injection h23 with h2 h3
        subst h1; subst h2
        cases root with
        | vPtr ty2 ov => rfl
        | vInvalid => simp only [derefA] at hw; exact absurd hw (by simp)
        | vInt n => rfl
        | vStr s => rfl
        | vBool bb => rfl
        | vStruct fs2 => rfl
        | vSlice ty2 es2 => rfl
        | vMap ty2 es2 => rfl
      | cons s₀ ss' => exact navClean_not_invalid hnav
    simp only [Server.Put, hroot, Bool.false_eq_true, if_false, string_mk_toList]
    rw [putGoF_err ss₀ root false emptyTag w b t₀ f
      ((joinSegs (ss₀ ++ [f])).length + 1) (String.mk (joinSegs (ss₀ ++ [f])))
      body (.badRequest jsonErrMsg) hnav hss hf
      (putGoF_field_decodeFail w b ad t₀ (String.mk (joinSegs (ss₀ ++ [f])))
        hf hw hfi hge hdec)
      (by omega)]

/-- Witness for C10: on the `TestPut` fixture, a string body neither
decodes as the `int` element type of `Map` nor of `Slice`; both appends
fail with `BadRequest` and return the unchanged tree, and part (i) applied
to the failing `Map` append also reports the unchanged tree. -/
theorem c10_put_atomic_decode_failure_witness :
    (Server.Put testerPut "Map/one" (.jStr "x")).2 = testerPut
    ∧ Server.Put testerPut "Map/one" (.jStr "x")
        = (.error (.badRequest jsonErrMsg), testerPut)
    ∧ Server.Put testerPut "Slice" (.jStr "x")
        = (.error (.badRequest jsonErrMsg), testerPut) :=
  ⟨c10_put_atomic_decode_failure.1 testerPut "Map/one" (.jStr "x")
      (.badRequest jsonErrMsg) rfl,
   c10_put_atomic_decode_failure.2.1 testerPut ["Map".toList] "one".toList
      true emptyTag .tInt [("one", .vInt 1)] (.jStr "x") rfl rfl rfl rfl,
   c10_put_atomic_decode_failure.2.2 testerPut [] "Slice".toList testerPut
      false true emptyTag testerPutFields 4 emptyTag "Slice" emptyTag .tInt
      [.vInt 1, .vInt 2, .vInt 3] (.jStr "x") rfl rfl rfl rfl rfl rfl rfl⟩

/-- Errors raised by `Server.Post`'s terminal unmarshal step propagate
unchanged through the resolution loop. -/
theorem postGoF_err :
    ∀ (ss : List (List Char)) (v : Val) (a : Bool) (t : Tag) (w : Val)
      (b : Bool) (t₀ : Tag) (fuel : Nat) (path : String) (body : Json)
      (e : Fail),
    navClean v a t ss = some (w, b, t₀) →
    segsClean ss = true →
    terminalPost path w b body = .error e →
    (joinSegs ss).length < fuel →
    postGoF fuel path v a (joinSegs ss) body = .error e := by
  intro ss
  induction ss with
  | nil =>
    intro v a t w b t₀ fuel path body e hnav _ hterm hfuel
    simp only [navClean, Option.some_inj] at hnav
    injection hnav with h1 h23
    injection h23 with h2 h3
    subst h1; subst h2
    match fuel, hfuel with
    | m + 1, _ =>
      simp only [joinSegs, postGoF, List.isEmpty_nil, if_true]
      exact hterm
  | cons s₀ ss ih =>
    intro v a t w b t₀ fuel path body e hnav hclean hterm hfuel
    have hs₀ : cleanSeg s₀ = true := by
      simp only [segsClean, List.all_cons, Bool.and_eq_true] at hclean
      exact hclean.1
    have hcl' : segsClean ss = true := by
      simp only [segsClean, List.all_cons, Bool.and_eq_true] at hclean
      exact hclean.2
    have hv : v.isInvalid = false := navClean_not_invalid hnav
    have hs₀ne : s₀ ≠ [] := (cleanSeg_iff.mp hs₀).1
    match fuel, hfuel with
    | fuel + 1, hfuel =>
      have hfuel' : (joinSegs ss).length < fuel := by
        cases ss with
        | nil =>
          rw [show joinSegs [s₀] = s₀ from rfl] at hfuel
          have h1 : 1 ≤ s₀.length := by
            cases s₀ with
            | nil => exact absurd rfl hs₀ne
            | cons c cs => simp
          simp only [joinSegs, List.length_nil]
          omega
        | cons s₁ ss' =>
          rw [joinSegs_cons (by simp)] at hfuel
          simp only [List.length_append, List.length_cons] at hfuel
          omega
      rw [navClean, if_neg (by simp [hv])] at hnav
      rcases hd : derefA v a with ⟨w2, a2⟩
      rw [hd] at hnav
      simp only at hnav
      have hjoin : chompPathL (joinSegs (s₀ :: ss)) = (s₀, joinSegs ss) :=
        chompPathL_joinSegs hs₀
      have hne : (joinSegs (s₀ :: ss)).isEmpty = false := by
        simpa [List.isEmpty_iff] using joinSegs_ne_nil (by simp) hclean
      cases w2 with
      | vStruct fs2 =>
        simp only at hnav
        cases hfi2 : fieldIndexByName fs2 (String.mk s₀) with
        | none => rw [hfi2] at hnav; simp at hnav
        | some it =>
          obtain ⟨j, tf⟩ := it
          rw [hfi2] at hnav
          simp only at hnav
          cases hge2 : fs2[j]? with
          | none => rw [hge2] at hnav; simp at hnav
          | some ff =>
            obtain ⟨nf2, tf2, c⟩ := ff
            rw [hge2] at hnav
            simp only at hnav
            have hpost := ih c a2 tf w b t₀ fuel path body e
              hnav hcl' hterm hfuel'
            simp only [postGoF, hne, Bool.false_eq_true, if_false, hv, hd,
              hjoin,
              (by simpa [List.isEmpty_iff] using hs₀ne : s₀.isEmpty = false)]
            simp only [hfi2, hge2, hpost]
      | vSlice ty2 es2 =>
        simp only at hnav
        cases hfi2 : parseGoIdx s₀ es2.length with
        | none => rw [hfi2] at hnav; simp at hnav
        | some d =>
          rw [hfi2] at hnav
          simp only at hnav
          cases hge2 : es2[d]? with
          | none => rw [hge2] at hnav; simp at hnav
          | some c =>
            rw [hge2] at hnav
            simp only at hnav
            have hpost := ih c true emptyTag w b t₀ fuel path body e
              hnav hcl' hterm hfuel'
            simp only [postGoF, hne, Bool.false_eq_true, if_false, hv, hd,
              hjoin,
              (by simpa [List.isEmpty_iff] using hs₀ne : s₀.isEmpty = false)]
            simp only [hfi2, hge2, hpost]
      | vMap ty2 es2 =>
        simp only at hnav
        cases hfi2 : lookupA es2 (String.mk s₀) with
        | none => rw [hfi2] at hnav; simp at hnav
        | some c =>
          rw [hfi2] at hnav
          simp only at hnav
          have hpost := ih c false emptyTag w b t₀ fuel path body e
            hnav hcl' hterm hfuel'
          simp only [postGoF, hne, Bool.false_eq_true, if_false, hv, hd,
            hjoin,
            (by simpa [List.isEmpty_iff] using hs₀ne : s₀.isEmpty = false)]
          simp only [hfi2, hpost]
      | vInvalid => simp only at hnav; exact absurd hnav (by simp)
      | vInt n => simp only at hnav; exact absurd hnav (by simp)
      | vStr str => simp only at hnav; exact absurd hnav (by simp)
      | vBool bb => simp only at hnav; exact absurd hnav (by simp)
      | vPtr ty2 p => simp only at hnav; exact absurd hnav (by simp)

/-- Counterexample to C5 as stated: the body `5` does not deserialize into
the string slot `Modify`, and `Server.Post` reports an
`InternalServerError` — HTTP 500, not the claimed `BadRequest` 400. -/
theorem c5_counterexample :
    Server.Post testerGet "Modify" (.jNum 5) = .error (.internal jsonErrMsg)
    ∧ (Fail.internal jsonErrMsg).status = 500
    ∧ (Fail.internal jsonErrMsg).status ≠ 400 := by
  refine ⟨rfl, rfl, ?_⟩
  decide

/-- C5 (amended): a body that fails to deserialize into the (non-pointer,
addressable) terminal slot makes Replace (`Server.Post`) fail with an
`InternalServerError` (surfaced as HTTP 500), not `BadRequest`; and the
error taxonomy maps `NotFoundError` to 404, `BadRequestError` to 400 and
`InternalServerError` to 500. -/
theorem c5_post_decode_internal :
    (∀ (root : Val) (ss : List (List Char)) (s : Val) (t' : Tag) (body : Json),
      navClean root false emptyTag ss = some (s, true, t') →
      segsClean ss = true →
      s.isPtrKind = false → s.isInvalid = false →
      unmarshalInto s body = none →
      Server.Post root (String.mk (joinSegs ss)) body
        = .error (.internal jsonErrMsg))
    ∧ (∀ m : String, (Fail.notFound m).status = 404
        ∧ (Fail.badRequest m).status = 400
        ∧ (Fail.internal m).status = 500) := by
  refine ⟨?_, fun m => ⟨rfl, rfl, rfl⟩⟩
  intro root ss s t' body hnav hss hptr hinv hum
  have hroot : root.isInvalid = false := by
    cases ss with
    | nil =>
      simp only [navClean, Option.some_inj] at hnav
      injection hnav with h1 h23
      injection h23 with h2 h3
      exact absurd h2 (by simp)
    | cons s₀ ss' => exact navClean_not_invalid hnav
  have hterm : terminalPost (String.mk (joinSegs ss)) s true body
      = .error (.internal jsonErrMsg) := by
    cases s with
    | vPtr ty p => exact absurd hptr (by simp [Val.isPtrKind])
    | vInvalid => exact absurd hinv (by simp [Val.isInvalid])
    | vInt n => simp [terminalPost, hum]
    | vStr str => simp [terminalPost, hum]
    | vBool bb => simp [terminalPost, hum]
    | vStruct fs => simp [terminalPost, hum]
    | vSlice ty es => simp [terminalPost, hum]
    | vMap ty es => simp [terminalPost, hum]
  simp only [Server.Post, hroot, Bool.false_eq_true, if_false, string_mk_toList]
  rw [postGoF_err ss root false emptyTag s true t' ((joinSegs ss).length + 1)
    (String.mk (joinSegs ss)) body (.internal jsonErrMsg) hnav hss hterm
    (by omega)]

/-- Witness for C5 (amended): the failing replace of the string field
`Modify` with the number `5`, and the taxonomy at a concrete message. -/
theorem c5_post_decode_internal_witness :
    Server.Post testerGet "Modify" (.jNum 5) = .error (.internal jsonErrMsg)
    ∧ ((Fail.notFound "x").status = 404 ∧ (Fail.badRequest "x").status = 400
        ∧ (Fail.internal "x").status = 500) :=
  ⟨c5_post_decode_internal.1 testerGet ["Modify".toList] (.vStr "empty")
      emptyTag (.jNum 5) rfl rfl rfl rfl rfl,
   c5_post_decode_internal.2 "x"⟩

/-- Errors raised by a failing resolution step propagate unchanged through
`Server.Get`'s loop: once a prefix has resolved, the loop continues on the
reached value with the remaining (non-empty) path. -/
theorem getGoF_err :
    ∀ (ss₀ : List (List Char)) (v : Val) (a : Bool) (t : Tag) (w : Val)
      (b : Bool) (t₀ : Tag) (rest : List Char) (fuel : Nat) (e : Fail),
    navClean v a t ss₀ = some (w, b, t₀) →
    segsClean ss₀ = true → rest ≠ [] →
    (∀ fuel', rest.length < fuel' → getGoF fuel' w rest = .error e) →
    (joinSegs (ss₀ ++ [rest])).length < fuel →
    getGoF fuel v (joinSegs (ss₀ ++ [rest])) = .error e := by
  intro ss₀
  induction ss₀ with
  | nil =>
    intro v a t w b t₀ rest fuel e hnav _ _ hterm hfuel
    simp only [navClean, Option.some_inj] at hnav
    injection hnav with h1 h23
    injection h23 with h2 h3
    subst h1
    rw [show joinSegs ([] ++ [rest]) = rest from rfl] at hfuel ⊢
    exact hterm fuel hfuel
  | cons s₀ ss₀ ih =>
    intro v a t w b t₀ rest fuel e hnav hclean hrne hterm hfuel
    have hs₀ : cleanSeg s₀ = true := by
      simp only [segsClean, List.all_cons, Bool.and_eq_true] at hclean
      exact hclean.1
    have hcl' : segsClean ss₀ = true := by
      simp only [segsClean, List.all_cons, Bool.and_eq_true] at hclean
      exact hclean.2
    have hv : v.isInvalid = false := navClean_not_invalid hnav
    have hs₀ne : s₀ ≠ [] := (cleanSeg_iff.mp hs₀).1
    have hs₀len : 1 ≤ s₀.length := by
      cases s₀ with
      | nil => exact absurd rfl hs₀ne
      | cons c cs => simp
    have htne : joinSegs (ss₀ ++ [rest]) ≠ [] := by
      cases ss₀ with
      | nil => simpa [joinSegs] using hrne
      | cons s₁ ss' =>
        rw [List.cons_append, joinSegs_cons (by simp)]
        have : s₁ ≠ [] := by
          exact (cleanSeg_iff.mp (by
            simp only [segsClean, List.all_cons, Bool.and_eq_true] at hcl'
            exact hcl'.1)).1
        intro hcontra
        exact this (List.append_eq_nil.mp hcontra).1
    have hjc : joinSegs ((s₀ :: ss₀) ++ [rest])
        = s₀ ++ '/' :: joinSegs (ss₀ ++ [rest]) := by
      rw [List.cons_append, joinSegs_cons (by simp)]
    match fuel, hfuel with
    | fuel + 1, hfuel =>
      have hfuel' : (joinSegs (ss₀ ++ [rest])).length < fuel := by
        rw [hjc] at hfuel
        simp only [List.length_append, List.length_cons] at hfuel
        omega
      rw [navClean, if_neg (by simp [hv])] at hnav
      rcases hd : derefA v a with ⟨w2, a2⟩
      rw [hd] at hnav
      simp only at hnav
      have hdt : (derefA v true).1 = w2 := by rw [derefA_fst v true a, hd]
      rw [hjc]
      simp only [getGoF, hv, Bool.false_eq_true, if_false, hdt,
        chompPathL_clean_sep hs₀,
        (by simpa [List.isEmpty_iff] using hs₀ne : s₀.isEmpty = false)]
      cases w2 with
      | vStruct fs2 =>
        simp only at hnav
        cases hfi2 : fieldIndexByName fs2 (String.mk s₀) with
        | none => rw [hfi2] at hnav; simp at hnav
        | some it =>
          obtain ⟨j, tf⟩ := it
          rw [hfi2] at hnav
          simp only at hnav
          cases hge2 : fs2[j]? with
          | none => rw [hge2] at hnav; simp at hnav
          | some ff =>
            obtain ⟨nf2, tf2, c⟩ := ff
            rw [hge2] at hnav
            simp only at hnav
            simp only [hfi2, hge2,
              (by simpa [List.isEmpty_iff] using htne
                : (joinSegs (ss₀ ++ [rest])).isEmpty = false),
              Bool.false_eq_true, if_false]
            exact ih c a2 tf w b t₀ rest fuel e hnav hcl' hrne hterm hfuel'
      | vSlice ty2 es2 =>
        simp only at hnav
        cases hfi2 : parseGoIdx s₀ es2.length with
        | none => rw [hfi2] at hnav; simp at hnav
        | some d =>
          rw [hfi2] at hnav
          simp only at hnav
          cases hge2 : es2[d]? with
          | none => rw [hge2] at hnav; simp at hnav
          | some c =>
            rw [hge2] at hnav
            simp only at hnav
            simp only [hfi2, hge2,
              (by simpa [List.isEmpty_iff] using htne
                : (joinSegs (ss₀ ++ [rest])).isEmpty = false),
              Bool.false_eq_true, if_false]
            exact ih c true emptyTag w b t₀ rest fuel e hnav hcl' hrne hterm hfuel'
      | vMap ty2 es2 =>
        simp only at hnav
        cases hfi2 : lookupA es2 (String.mk s₀) with
        | none => rw [hfi2] at hnav; simp at hnav
        | some c =>
          rw [hfi2] at hnav
          simp only at hnav
          simp only [hfi2,
            (by simpa [List.isEmpty_iff] using htne
              : (joinSegs (ss₀ ++ [rest])).isEmpty = false),
            Bool.false_eq_true, if_false]
          exact ih c false emptyTag w b t₀ rest fuel e hnav hcl' hrne hterm hfuel'
      | vInvalid => simp at hnav
      | vInt n => simp at hnav
      | vStr str => simp at hnav
      | vBool bb => simp at hnav
      | vPtr ty2 p => simp at hnav

/-- A value whose dereference is not the invalid `Value` is itself not the
invalid `Value`. -/
theorem not_invalid_of_derefA :
    ∀ (w : Val) (b : Bool), ((derefA w b).1).isInvalid = false →
      w.isInvalid = false
  | .vInvalid, _, h => absurd h (by simp only [derefA]; simp [Val.isInvalid])
  | .vInt _, _, _ => rfl
  | .vStr _, _, _ => rfl
  | .vBool _, _, _ => rfl
  | .vStruct _, _, _ => rfl
  | .vSlice _ _, _, _ => rfl
  | .vMap _ _, _, _ => rfl
  | .vPtr _ _, _, _ => rfl

/-- If the locator resolves a path from `v` to a non-invalid value then
`v` itself is not the invalid `Value`. -/
theorem navClean_src_not_invalid {v : Val} {a : Bool} {t : Tag}
    {ss : List (List Char)} {w : Val} {b : Bool} {t₀ : Tag}
    (hnav : navClean v a t ss = some (w, b, t₀))
    (hw : w.isInvalid = false) : v.isInvalid = false := by
  cases ss with
  | nil =>
    simp only [navClean, Option.some_inj] at hnav
    injection hnav with h1 h23
    rw [h1]; exact hw
  | cons s₀ ss' => exact navClean_not_invalid hnav

/-- C6 (amended): after any resolved prefix, a failing segment makes
Fetch (`Server.Get`) fail — with `NotFound` for a missing record field or
a missing map key, but with `BadRequest` (`"invalid integer conversion"`,
HTTP 400, not 404) for a sequence index that does not parse or is out of
range; the `strconv.ParseInt` failure and the range check share one error.
The final conjunct records the statuses. -/
theorem c6_get_failure_taxonomy :
    (∀ (root : Val) (ss₀ : List (List Char)) (f : List Char) (w : Val)
        (b ad : Bool) (t₀ : Tag) (fs : List (String × Tag × Val)),
      navClean root false emptyTag ss₀ = some (w, b, t₀) →
      segsClean ss₀ = true → cleanSeg f = true →
      derefA w b = (.vStruct fs, ad) →
      fieldIndexByName fs (String.mk f) = none →
      Server.Get root (String.mk (joinSegs (ss₀ ++ [f])))
        = .error (.notFound "field not found"))
    ∧ (∀ (root : Val) (ss₀ : List (List Char)) (f : List Char) (w : Val)
        (b ad : Bool) (t₀ : Tag) (ty : Ty) (es : List (String × Val)),
      navClean root false emptyTag ss₀ = some (w, b, t₀) →
      segsClean ss₀ = true → cleanSeg f = true →
      derefA w b = (.vMap ty es, ad) →
      lookupA es (String.mk f) = none →
      Server.Get root (String.mk (joinSegs (ss₀ ++ [f])))
        = .error (.notFound "key not found"))
    ∧ (∀ (root : Val) (ss₀ : List (List Char)) (f : List Char) (w : Val)
        (b ad : Bool) (t₀ : Tag) (ty : Ty) (es : List Val),
      navClean root false emptyTag ss₀ = some (w, b, t₀) →
      segsClean ss₀ = true → cleanSeg f = true →
      derefA w b = (.vSlice ty es, ad) →
      parseGoIdx f es.length = none →
      Server.Get root (String.mk (joinSegs (ss₀ ++ [f])))
        = .error (.badRequest "invalid integer conversion"))
    ∧ ((Fail.notFound "field not found").status = 404
        ∧ (Fail.notFound "key not found").status = 404
        ∧ (Fail.badRequest "invalid integer conversion").status = 400) := by
  refine ⟨?_, ?_, ?_, rfl, rfl, rfl⟩
  · intro root ss₀ f w b ad t₀ fs hnav hss hf hw hfi
    have hwi : w.isInvalid = false :=
      not_invalid_of_derefA w b (by rw [hw]; rfl)
    have hterm : ∀ fuel', f.length < fuel' →
        getGoF fuel' w f = .error (.notFound "field not found") := by
      intro fuel' hlt
      match fuel', hlt with
      | m + 1, _ =>
        have hdt : (derefA w true).1 = .vStruct fs := by
          rw [derefA_fst w true b, hw]
        simp only [getGoF, hwi, Bool.false_eq_true, if_false, hdt,
          chompPathL_clean hf,
          (by simpa [List.isEmpty_iff] using (cleanSeg_iff.mp hf).1
            : f.isEmpty = false),
          hfi]
    simp only [Server.Get, navClean_src_not_invalid hnav hwi,
      Bool.false_eq_true, if_false, string_mk_toList]
    exact getGoF_err ss₀ root false emptyTag w b t₀ f
      ((joinSegs (ss₀ ++ [f])).length + 1) (.notFound "field not found")
      hnav hss (cleanSeg_iff.mp hf).1 hterm (by omega)
  · intro root ss₀ f w b ad t₀ ty es hnav hss hf hw hfi
    have hwi : w.isInvalid = false :=
      not_invalid_of_derefA w b (by rw [hw]; rfl)
    have hterm : ∀ fuel', f.length < fuel' →
        getGoF fuel' w f = .error (.notFound "key not found") := by
      intro fuel' hlt
      match fuel', hlt with
      | m + 1, _ =>
        have hdt : (derefA w true).1 = .vMap ty es := by
          rw [derefA_fst w true b, hw]
        simp only [getGoF, hwi, Bool.false_eq_true, if_false, hdt,
          chompPathL_clean hf,
          (by simpa [List.isEmpty_iff] using (cleanSeg_iff.mp hf).1
            : f.isEmpty = false),
          hfi]
    simp only [Server.Get, navClean_src_not_invalid hnav hwi,
      Bool.false_eq_true, if_false, string_mk_toList]
    exact getGoF_err ss₀ root false emptyTag w b t₀ f
      ((joinSegs (ss₀ ++ [f])).length + 1) (.notFound "key not found")
      hnav hss (cleanSeg_iff.mp hf).1 hterm (by omega)
  · intro root ss₀ f w b ad t₀ ty es hnav hss hf hw hfi
    have hwi : w.isInvalid = false :=
      not_invalid_of_derefA w b (by rw [hw]; rfl)
    have hterm : ∀ fuel', f.length < fuel' →
        getGoF fuel' w f = .error (.badRequest "invalid integer conversion") := by
      intro fuel' hlt
      match fuel', hlt with
      | m + 1, _ =>
        have hdt : (derefA w true).1 = .vSlice ty es := by
          rw [derefA_fst w true b, hw]
        simp only [getGoF, hwi, Bool.false_eq_true, if_false, hdt,
          chompPathL_clean hf,
          (by simpa [List.isEmpty_iff] using (cleanSeg_iff.mp hf).1
            : f.isEmpty = false),
          hfi]
    simp only [Server.Get, navClean_src_not_invalid hnav hwi,
      Bool.false_eq_true, if_false, string_mk_toList]
    exact getGoF_err ss₀ root false emptyTag w b t₀ f
      ((joinSegs (ss₀ ++ [f])).length + 1)
      (.badRequest "invalid integer conversion")
      hnav hss (cleanSeg_iff.mp hf).1 hterm (by omega)

/-- Witness for C6 (amended): a missing field and a missing map key give
`NotFound`; the out-of-range index 5 gives `BadRequest`. -/
theorem c6_get_failure_taxonomy_witness :
    Server.Get testerGet "Struct/Blah" = .error (.notFound "field not found")
    ∧ Server.Get testerDel "Map/three" = .error (.notFound "key not found")
    ∧ Server.Get testerDel "Slice/5"
        = .error (.badRequest "invalid integer conversion") :=
  ⟨c6_get_failure_taxonomy.1 testerGet ["Struct".toList] "Blah".toList
      (.vStruct [("Bool", emptyTag, .vBool true)]) true true emptyTag
      [("Bool", emptyTag, .vBool true)] rfl rfl rfl rfl rfl,
   c6_get_failure_taxonomy.2.1 testerDel ["Map".toList] "three".toList
      (.vMap .tInt [("one", .vInt 1), ("two", .vInt 2)]) true true emptyTag
      .tInt [("one", .vInt 1), ("two", .vInt 2)] rfl rfl rfl rfl rfl,
   c6_get_failure_taxonomy.2.2.1 testerDel ["Slice".toList] "5".toList
      (.vSlice .tInt [.vInt 1, .vInt 2, .vInt 3]) true true emptyTag
      .tInt [.vInt 1, .vInt 2, .vInt 3] rfl rfl rfl rfl rfl⟩

/-- Counterexample to C6 as stated: the sequence index 5 is out of range
for the three-element `Slice`, yet Fetch fails with `BadRequest`
(status 400), not `NotFound` (404). -/
theorem c6_counterexample :
    Server.Get testerDel "Slice/5"
      = .error (.badRequest "invalid integer conversion")
    ∧ (Fail.badRequest "invalid integer conversion").status ≠ 404 := by
  refine ⟨rfl, by decide⟩

/-- Errors raised by `Server.Delete`'s terminal step propagate unchanged
through its resolution loop. -/
theorem delGoF_err :
    ∀ (ss₀ : List (List Char)) (v : Val) (a : Bool) (t : Tag) (w : Val)
      (b : Bool) (t₀ : Tag) (f : List Char) (fuel : Nat) (path : String)
      (e : Fail),
    navClean v a t ss₀ = some (w, b, t₀) →
    segsClean ss₀ = true → cleanSeg f = true →
    terminalDel w b f = .error e →
    (joinSegs (ss₀ ++ [f])).length < fuel →
    delGoF fuel path v a (joinSegs (ss₀ ++ [f])) = .error e := by
  intro ss₀
  induction ss₀ with
  | nil =>
    intro v a t w b t₀ f fuel path e hnav _ hf hterm hfuel
    simp only [navClean, Option.some_inj] at hnav
    injection hnav with h1 h23
    injection h23 with h2 h3
    subst h1; subst h2
    have hfcont : f.contains '/' = false := by
      simpa using (cleanSeg_iff.mp hf).2
    rw [show joinSegs ([] ++ [f]) = f from rfl] at hfuel ⊢
    match fuel, hfuel with
    | m + 1, _ =>
      rw [delGoF, if_pos (by simpa using (cleanSeg_iff.mp hf).2)]
      exact hterm
  | cons s₀ ss₀ ih =>
    intro v a t w b t₀ f fuel path e hnav hclean hf hterm hfuel
    have hs₀ : cleanSeg s₀ = true := by
      simp only [segsClean, List.all_cons, Bool.and_eq_true] at hclean
      exact hclean.1
    have hcl' : segsClean ss₀ = true := by
      simp only [segsClean, List.all_cons, Bool.and_eq_true] at hclean
      exact hclean.2
    have hv : v.isInvalid = false := navClean_not_invalid hnav
    have hs₀ne : s₀ ≠ [] := (cleanSeg_iff.mp hs₀).1
    have hjc : joinSegs ((s₀ :: ss₀) ++ [f])
        = s₀ ++ '/' :: joinSegs (ss₀ ++ [f]) := by
      rw [List.cons_append, joinSegs_cons (by simp)]
    have hcont : (s₀ ++ '/' :: joinSegs (ss₀ ++ [f])).contains '/' = true := by
      simp
    match fuel, hfuel with
    | fuel + 1, hfuel =>
      have hfuel' : (joinSegs (ss₀ ++ [f])).length < fuel := by
        rw [hjc] at hfuel
        simp only [List.length_append, List.length_cons] at hfuel
        omega
      rw [navClean, if_neg (by simp [hv])] at hnav
      rcases hd : derefA v a with ⟨w2, a2⟩
      rw [hd] at hnav
      simp only at hnav
      rw [hjc]
      cases w2 with
      | vStruct fs2 =>
        simp only at hnav
        cases hfi2 : fieldIndexByName fs2 (String.mk s₀) with
        | none => rw [hfi2] at hnav; simp at hnav
        | some it =>
          obtain ⟨j, tf⟩ := it
          rw [hfi2] at hnav
          simp only at hnav
          cases hge2 : fs2[j]? with
          | none => rw [hge2] at hnav; simp at hnav
          | some ff =>
            obtain ⟨nf2, tf2, c⟩ := ff
            rw [hge2] at hnav
            simp only at hnav
            have hdel := ih c a2 tf w b t₀ f fuel path e
              hnav hcl' hf hterm hfuel'
            simp only [delGoF, hcont, Bool.not_true, Bool.false_eq_true,
              if_false, hv, hd, chompPathL_clean_sep hs₀,
              (by simpa [List.isEmpty_iff] using hs₀ne : s₀.isEmpty = false)]
            simp only [hfi2, hge2, hdel]
            simp
      | vSlice ty2 es2 =>
        simp only at hnav
        cases hfi2 : parseGoIdx s₀ es2.length with
        | none => rw [hfi2] at hnav; simp at hnav
        | some d =>
          rw [hfi2] at hnav
          simp only at hnav
          cases hge2 : es2[d]? with
          | none => rw [hge2] at hnav; simp at hnav
          | some c =>
            rw [hge2] at hnav
            simp only at hnav
            have hdel := ih c true emptyTag w b t₀ f fuel path e
              hnav hcl' hf hterm hfuel'
            simp only [delGoF, hcont, Bool.not_true, Bool.false_eq_true,
              if_false, hv, hd, chompPathL_clean_sep hs₀,
              (by simpa [List.isEmpty_iff] using hs₀ne : s₀.isEmpty = false)]
            simp only [hfi2, hge2, hdel]
            simp
      | vMap ty2 es2 =>
        simp only at hnav
        cases hfi2 : lookupA es2 (String.mk s₀) with
        | none => rw [hfi2] at hnav; simp at hnav
        | some c =>
          rw [hfi2] at hnav
          simp only at hnav
          have hdel := ih c false emptyTag w b t₀ f fuel path e
            hnav hcl' hf hterm hfuel'
          simp only [delGoF, hcont, Bool.not_true, Bool.false_eq_true,
            if_false, hv, hd, chompPathL_clean_sep hs₀,
            (by simpa [List.isEmpty_iff] using hs₀ne : s₀.isEmpty = false)]
          simp only [hfi2, hdel]
          simp
      | vInvalid => simp only at hnav; exact absurd hnav (by simp)
      | vInt n => simp only at hnav; exact absurd hnav (by simp)
      | vStr str => simp only at hnav; exact absurd hnav (by simp)
      | vBool bb => simp only at hnav; exact absurd hnav (by simp)
      | vPtr ty2 p => simp only at hnav; exact absurd hnav (by simp)

/-- C7 (amended): Remove (`Server.Delete`) addressed at a map whose
terminal key is absent is NOT idempotent: it returns
`NotFoundError("key not found '<key>'")` (the package's own test expects
this error).  The error return precedes `v.SetMapIndex`, so nothing is
deleted. -/
theorem c7_map_remove_absent_key (root : Val) (ss₀ : List (List Char))
    (f : List Char) (b : Bool) (t₀ : Tag) (ty : Ty)
    (es : List (String × Val))
    (hnav : navClean root false emptyTag ss₀ = some (.vMap ty es, b, t₀))
    (hss : segsClean ss₀ = true) (hf : cleanSeg f = true)
    (hlook : lookupA es (String.mk f) = none) :
    Server.Delete root (String.mk (joinSegs (ss₀ ++ [f])))
      = .error (.notFound ("key not found '" ++ String.mk f ++ "'")) := by
  have hterm : terminalDel (.vMap ty es) b f
      = .error (.notFound ("key not found '" ++ String.mk f ++ "'")) := by
    simp only [terminalDel, hlook]
  simp only [Server.Delete, navClean_src_not_invalid hnav rfl,
    Bool.false_eq_true, if_false, string_mk_toList]
  exact delGoF_err ss₀ root false emptyTag (.vMap ty es) b t₀ f
    ((joinSegs (ss₀ ++ [f])).length + 1) (String.mk (joinSegs (ss₀ ++ [f])))
    (.notFound ("key not found '" ++ String.mk f ++ "'"))
    hnav hss hf hterm (by omega)

/-- Witness for C7 (amended): deleting the absent key `three` from the
test fixture's two-key map reports the not-found error. -/
theorem c7_map_remove_absent_key_witness :
    Server.Delete testerDel "Map/three"
      = .error (.notFound ("key not found '" ++ "three" ++ "'")) :=
  c7_map_remove_absent_key testerDel ["Map".toList] "three".toList
    true emptyTag .tInt [("one", .vInt 1), ("two", .vInt 2)] rfl rfl rfl rfl

/-- Counterexample to C7 as stated: the claim says removal of an absent
map key "returns no error", but deleting `Map/three` (the key is absent)
returns `NotFoundError` with status 404 — exactly what the package's own
`TestDelete` expects. -/
theorem c7_counterexample :
    Server.Delete testerDel "Map/three"
      = .error (.notFound "key not found 'three'")
    ∧ (Fail.notFound "key not found 'three'").status = 404 := ⟨rfl, rfl⟩

/-- The specification's description of the name→slot mapping, written
directly from its words: the slot of the last exported field whose
externally-visible name (json tag up to the first comma if present,
else the field's own name) is `name`; `i` is the index of the first
listed field. -/
def specFieldIndex : Nat → List (String × Tag × Val) → String → Option Nat
  | _, [], _ => none
  | i, (n, t, _) :: fs, name =>
    match specFieldIndex (i + 1) fs name with
    | some j => some j
    | none => if isExportedName n = true ∧ effName n t = name then some i else none

theorem lookupCache_insertCache_self :
    ∀ (c : List (String × Nat)) (k : String) (i : Nat),
    lookupCache (insertCache c k i) k = some i := by
  intro c k i
  induction c with
  | nil => simp [insertCache, lookupCache]
  | cons kv rest ih =>
    obtain ⟨k', j⟩ := kv
    by_cases h : k' = k
    · subst h; simp [insertCache, lookupCache]
    · simp [insertCache, lookupCache, h, ih]

theorem lookupCache_insertCache_ne :
    ∀ (c : List (String × Nat)) (k name : String) (i : Nat), k ≠ name →
    lookupCache (insertCache c k i) name = lookupCache c name := by
  intro c k name i hne
  induction c with
  | nil => simp [insertCache, lookupCache, hne]
  | cons kv rest ih =>
    obtain ⟨k', j⟩ := kv
    by_cases h : k' = k
    · subst h; simp [insertCache, lookupCache, hne]
    · simp [insertCache, lookupCache, h, ih]

/-- The cache built by `fieldIndexByName`'s loop realizes exactly the
specification mapping (later fields overwrite earlier ones with the same
visible name, matching "last exported match wins"). -/
theorem buildCacheAux_lookupCache :
    ∀ (fs : List (String × Tag × Val)) (i : Nat) (c : List (String × Nat))
      (name : String),
    lookupCache (buildCacheAux i fs c) name
      = match specFieldIndex i fs name with
        | some j => some j
        | none => lookupCache c name := by
  intro fs
  induction fs with
  | nil => intro i c name; rfl
  | cons hd tl ih =>
    obtain ⟨n, t, v⟩ := hd
    intro i c name
    simp only [buildCacheAux, specFieldIndex]
    rw [ih]
    cases hsp : specFieldIndex (i + 1) tl name with
    | some j => simp
    | none =>
      simp only
      by_cases hex : isExportedName n = true
      · by_cases heq : effName n t = name
        · rw [if_pos hex, if_pos ⟨hex, heq⟩]
          rw [← heq]
          exact lookupCache_insertCache_self c (effName n t) i
        · rw [if_pos hex, if_neg (by tauto)]
          exact lookupCache_insertCache_ne c (effName n t) name i heq
      · have hex' : isExportedName n = false := by simpa using hex
        rw [if_neg (by simp [hex']), if_neg (by tauto)]

/-- A hit of the specification mapping names an exported field (at
absolute index `j`, relative `j - i`) whose visible name is `name`. -/
theorem specFieldIndex_some :
    ∀ (fs : List (String × Tag × Val)) (i j : Nat) (name : String),
    specFieldIndex i fs name = some j →
    i ≤ j ∧ ∃ n t v, fs[j - i]? = some (n, t, v)
      ∧ isExportedName n = true ∧ effName n t = name := by
  intro fs
  induction fs with
  | nil => intro i j name h; simp [specFieldIndex] at h
  | cons hd tl ih =>
    obtain ⟨n, t, v⟩ := hd
    intro i j name h
    simp only [specFieldIndex] at h
    cases hsp : specFieldIndex (i + 1) tl name with
    | some j' =>
      rw [hsp] at h
      simp only at h
      injection h with h
      subst h
      obtain ⟨hij, n', t', v', hge, hex, heff⟩ := ih (i + 1) j' name hsp
      refine ⟨by omega, n', t', v', ?_, hex, heff⟩
      rw [show j' - i = (j' - (i + 1)) + 1 from by omega]
      simpa using hge
    | none =>
      rw [hsp] at h
      simp only at h
      by_cases hc : isExportedName n = true ∧ effName n t = name
      · rw [if_pos hc] at h
        injection h with h
        subst h
        exact ⟨le_refl i, n, t, v, by simp, hc.1, hc.2⟩
      · rw [if_neg hc] at h
        exact absurd h (by simp)

/-- A miss of the specification mapping means no exported field has
visible name `name`. -/
theorem specFieldIndex_none :
    ∀ (fs : List (String × Tag × Val)) (i : Nat) (name : String),
    specFieldIndex i fs name = none →
    ∀ (k : Nat) (n : String) (t : Tag) (v : Val), fs[k]? = some (n, t, v) →
      isExportedName n = true → effName n t ≠ name := by
  intro fs
  induction fs with
  | nil => intro i name _ k n t v hk; simp at hk
  | cons hd tl ih =>
    obtain ⟨n0, t0, v0⟩ := hd
    intro i name h k n t v hk hex
    simp only [specFieldIndex] at h
    cases hsp : specFieldIndex (i + 1) tl name with
    | some j' => rw [hsp] at h; exact absurd h (by simp)
    | none =>
      rw [hsp] at h
      simp only at h
      have hc : ¬(isExportedName n0 = true ∧ effName n0 t0 = name) := by
        intro hc
        rw [if_pos hc] at h
        exact absurd h (by simp)
      cases k with
      | zero =>
        simp only [List.getElem?_cons_zero, Option.some_inj] at hk
        injection hk with h1 h23
        injection h23 with h2 h3
        subst h1; subst h2
        intro heq
        exact hc ⟨hex, heq⟩
      | succ k' =>
        simp only [List.getElem?_cons_succ] at hk
        exact ih (i + 1) name hsp k' n t v hk hex

/-- C8: a path segment resolves a record field by its externally-visible
name — the json tag up to the first comma when present, the field's own
name otherwise — and only exported fields participate: a cache hit names
an exported field whose visible name is the segment (and returns that
field's tag), and on a miss no exported field has that visible name. -/
theorem c8_field_naming (fs : List (String × Tag × Val)) (name : String) :
    (∀ (i : Nat) (tag : Tag), fieldIndexByName fs name = some (i, tag) →
      ∃ n v, fs[i]? = some (n, tag, v) ∧ isExportedName n = true
        ∧ effName n tag = name)
    ∧ (fieldIndexByName fs name = none →
      ∀ (j : Nat) (n : String) (t : Tag) (v : Val), fs[j]? = some (n, t, v) →
        isExportedName n = true → effName n t ≠ name) := by
  have hcs : lookupCache (buildCache fs) name
      = match specFieldIndex 0 fs name with
        | some j => some j
        | none => lookupCache [] name :=
    buildCacheAux_lookupCache fs 0 [] name
  constructor
  · intro i tag h
    simp only [fieldIndexByName] at h
    cases hlc : lookupCache (buildCache fs) name with
    | none => rw [hlc] at h; exact absurd h (by simp)
    | some i0 =>
      rw [hlc] at h
      simp only at h
      cases hge : fs[i0]? with
      | none => rw [hge] at h; exact absurd h (by simp)
      | some p =>
        obtain ⟨n0, t0, v0⟩ := p
        rw [hge] at h
        simp only [Option.some_inj] at h
        injection h with h1 h2
        subst h1; subst h2
        rw [hlc] at hcs
        cases hsp : specFieldIndex 0 fs name with
        | none => rw [hsp] at hcs; exact absurd hcs (by simp [lookupCache])
        | some j =>
          rw [hsp] at hcs
          simp only [Option.some_inj] at hcs
          subst hcs
          obtain ⟨_, n', t', v', hge', hex, heff⟩ :=
            specFieldIndex_some fs 0 i0 name hsp
          rw [Nat.sub_zero, hge] at hge'
          injection hge' with hge'
          injection hge' with h1 h23
          injection h23 with h2 h3
          subst h1; subst h2
          exact ⟨n0, v0, hge, hex, heff⟩
  · intro h j n t v hge hex
    simp only [fieldIndexByName] at h
    cases hlc : lookupCache (buildCache fs) name with
    | some i0 =>
      rw [hlc] at h
      simp only at h
      rw [hlc] at hcs
      cases hsp : specFieldIndex 0 fs name with
      | none => rw [hsp] at hcs; exact absurd hcs (by simp [lookupCache])
      | some j' =>
        rw [hsp] at hcs
        simp only [Option.some_inj] at hcs
        subst hcs
        obtain ⟨_, n', t', v', hge', _, _⟩ :=
          specFieldIndex_some fs 0 i0 name hsp
        rw [Nat.sub_zero] at hge'
        rw [hge'] at h
        exact absurd h (by simp)
    | none =>
      rw [hlc] at hcs
      cases hsp : specFieldIndex 0 fs name with
      | some j' => rw [hsp] at hcs; exact absurd hcs (by simp)
      | none => exact specFieldIndex_none fs 0 name hsp j n t v hge hex

/-- Witness for C8: on `TestStruct`, the segment `integer` hits the field
tagged `json:"integer,omitempty"` (exported, visible name `integer`),
while the Go field name `Integer` misses — its visible name differs — and
the segment `nonExported` misses (the only field of that name is
unexported, so the miss hypothesis is discharged by evaluation). -/
theorem c8_field_naming_witness :
    (∃ n v, testerGetFields[0]?
        = some (n, (⟨some "integer,omitempty", none⟩ : Tag), v)
      ∧ isExportedName n = true
      ∧ effName n ⟨some "integer,omitempty", none⟩ = "integer")
    ∧ effName "Integer" ⟨some "integer,omitempty", none⟩ ≠ "Integer"
    ∧ effName "String" ⟨some "String", none⟩ ≠ "nonExported" :=
  ⟨(c8_field_naming testerGetFields "integer").1 0
      ⟨some "integer,omitempty", none⟩ rfl,
   (c8_field_naming testerGetFields "Integer").2 rfl 0 "Integer"
      ⟨some "integer,omitempty", none⟩ (.vInt (-6)) rfl rfl,
   (c8_field_naming testerGetFields "nonExported").2 rfl 1 "String"
      ⟨some "String", none⟩ (.vStr "blah") rfl rfl⟩
